import Mathlib

/-!
# Verification of the grantha-explorer document model and reference resolver

Shallow embedding of the core data/reference modules of the grantha-explorer
repository (`lib/data.ts`, `lib/references.ts`) together with a model of the
JSON ↔ markup converter and the structural-alias resolver, which the
repository documents (tools/grantha_converter/README.md, GRANTHA_MARKDOWN.md,
the enhanced-reference design plan) but whose implementation files are not
part of the analysed tree; those parts are modelled from the specification
and are marked as such in their doc comments.

JavaScript strings are modelled as Lean `String`s, JS arrays as `List`s, JS
objects used as string-keyed dictionaries as association lists in enumeration
order (insertion order, which is what `for … in` iterates for non-index keys),
and JS lookup misses (`undefined`) as `Option.none`.
-/

namespace GranthaExplorer

/-! ## JavaScript string primitives

`String.prototype.split` with a one-character separator, `parseInt`, and the
character-wise `replace` used by the source are modelled here on `List Char`.
-/

/-- JS `s.split(sep)` for a single-character separator: always returns a
non-empty list; `"".split(sep) = [""]`, a trailing separator yields a final
empty component. -/
def charSplit (sep : Char) : List Char → List (List Char)
  | [] => [[]]
  | c :: rest =>
    let r := charSplit sep rest
    if c = sep then [] :: r
    else
      match r with
      | [] => [[c]]
      | h :: t => (c :: h) :: t

/-- `Array.prototype.join(sep)` for a one-character separator. -/
def joinSep (sep : Char) : List (List Char) → List Char
  | [] => []
  | [x] => x
  | x :: y :: t => x ++ sep :: joinSep sep (y :: t)

/-- JS `s.split(sep)` on `String`s. -/
def jsSplit (sep : Char) (s : String) : List String :=
  (charSplit sep s.data).map fun l => ⟨l⟩

def isDigitChar (c : Char) : Bool :=
  '0' ≤ c ∧ c ≤ '9'

/-- Numeric value of a digit run (most significant first). -/
def digitsVal (ds : List Char) : Nat :=
  ds.foldl (fun n c => n * 10 + (c.toNat - 48)) 0

/-- The leading digit run of `cs` as a number; `none` when there is none. -/
def digitRun (cs : List Char) : Option Nat :=
  let ds := cs.takeWhile isDigitChar
  if ds = [] then none else some (digitsVal ds)

/-- JS `parseInt(s)` (radix 10): skip leading spaces, optional sign, then a
leading run of digits; `none` models `NaN`. -/
def jsParseInt (s : String) : Option Int :=
  match s.data.dropWhile (· = ' ') with
  | [] => none
  | c :: rest =>
    if c = '-' then (digitRun rest).map fun n => -(n : Int)
    else if c = '+' then (digitRun rest).map fun n => (n : Int)
    else (digitRun (c :: rest)).map fun n => (n : Int)

/-- Canonical decimal numeral of a natural number (fuel-structured so that it
reduces in the kernel). -/
def natStrAux : Nat → Nat → List Char
  | 0, _ => []
  | fuel + 1, n =>
    if n < 10 then [Char.ofNat (48 + n)]
    else natStrAux fuel (n / 10) ++ [Char.ofNat (48 + n % 10)]

/-- Canonical decimal numeral of a natural number, e.g. `natStr 10 = "10"`. -/
def natStr (n : Nat) : String := ⟨natStrAux (n + 1) n⟩

/-- `s` is the canonical decimal numeral of some natural number.  Decidable
form used as the hypothesis "every ref segment parses as an integer". -/
def isCanonicalNat (s : String) : Bool :=
  natStr (digitsVal s.data) = s ∧ s.data.all isDigitChar ∧ s.data ≠ []

/-- First-occurrence deduplication: the order JS object keys are enumerated in
after repeated `obj[k] = v` insertions (first insertion fixes the position). -/
def firstDedupAux : List String → List String → List String
  | _, [] => []
  | seen, a :: rest =>
    if a ∈ seen then firstDedupAux seen rest
    else a :: firstDedupAux (a :: seen) rest

def firstDedup (l : List String) : List String := firstDedupAux [] l

end GranthaExplorer

namespace GranthaExplorer.References

/-!
## `lib/references.ts`

Embedding of the reference parser (the file reproduced in
GRANTHA_MARKDOWN.md): the citation regex
`/\[([^\]]+)\]\(ref:([^\)]+)\)/g`, the `exec` scanning loop and the
per-match field construction of `parseReferences`.
-/

/-- `Reference` as in `lib/references.ts`. -/
structure Reference where
  fullMatch : String
  displayText : String
  rawRef : String
  granthaId : String
  path : String
deriving Repr, DecidableEq

/-- Characters of `cs` before the first occurrence of `stop`, and the suffix
after it; `none` when `stop` does not occur.  Models the forced extent of
`[^x]+` followed by the literal `x` in the citation regex. -/
def takeUntil (stop : Char) : List Char → Option (List Char × List Char)
  | [] => none
  | c :: rest =>
    if c = stop then some ([], rest)
    else
      match takeUntil stop rest with
      | none => none
      | some (pre, post) => some (c :: pre, post)

/-- Strip an expected literal lead-in; `none` when `cs` does not start with
`pat`. -/
def stripLead : List Char → List Char → Option (List Char)
  | [], cs => some cs
  | _ :: _, [] => none
  | p :: ps, c :: cs => if p = c then stripLead ps cs else none

/-- The literal `(ref:` between the display part and the payload. -/
def refMarker : List Char := ['(', 'r', 'e', 'f', ':']

/-- Attempt a match of the citation regex whose `[` has just been consumed:
the display text runs to the first `]` (and must be non-empty, `[^\]]+`), the
literal `(ref:` follows, and the payload runs to the first `)` (non-empty,
`[^\)]+`).  Returns display, payload, and the rest of the text after the
closing `)` — JS `exec` resumes there (`lastIndex`). -/
def tryMatchAfterBracket (cs : List Char) :
    Option (List Char × List Char × List Char) :=
  match takeUntil ']' cs with
  | none => none
  | some (display, afterBr) =>
    if display = [] then none
    else
      match stripLead refMarker afterBr with
      | none => none
      | some afterMark =>
        match takeUntil ')' afterMark with
        | none => none
        | some (payload, rest) =>
          if payload = [] then none else some (display, payload, rest)

/-- Build one `Reference` from a matched display text and raw payload,
mirroring the body of the `while` loop:
`parts = rawRef.split('/')`, `granthaAbbr = parts[0]`,
`path = parts.slice(1).join('/')`,
`granthaId = abbreviationMap[granthaAbbr] || granthaAbbr` (note `||`: an
empty-string mapping is falsy and also falls back), and `normalizedPath` is
`path` with every slash and hyphen replaced by a dot (the global regex
replace over the two separator characters). -/
def mkRef (m : String → Option String) (display payload : List Char) :
    Reference :=
  let parts := charSplit '/' payload
  let granthaAbbr : List Char :=
    match parts with
    | [] => []
    | h :: _ => h
  let path := joinSep '/' (parts.drop 1)
  let abbrS : String := ⟨granthaAbbr⟩
  let granthaId :=
    match m abbrS with
    | some v => if v = "" then abbrS else v
    | none => abbrS
  { fullMatch := ⟨'[' :: display ++ ']' :: refMarker ++ payload ++ [')']⟩
    displayText := ⟨display⟩
    rawRef := ⟨payload⟩
    granthaId := granthaId
    path := ⟨path.map fun c => if c = '/' ∨ c = '-' then '.' else c⟩ }

/-- The `while ((match = referenceRegex.exec(text)) !== null)` loop: scan left
to right; at a `[` attempt a match, on success emit the reference and resume
after the match, otherwise resume one character further.  The fuel argument
only bounds the recursion (the wrapper passes the text length, which always
suffices); it keeps the definition kernel-reducible. -/
def scanRefs (m : String → Option String) : Nat → List Char → List Reference
  | 0, _ => []
  | _, [] => []
  | fuel + 1, c :: cs =>
    if c = '[' then
      match tryMatchAfterBracket cs with
      | some (display, payload, rest) =>
        mkRef m display payload :: scanRefs m fuel rest
      | none => scanRefs m fuel cs
    else scanRefs m fuel cs

/-- `parseReferences(text, abbreviationMap)`.  The abbreviation map is the
dictionary built by `createAbbreviationMap`, modelled as a partial function. -/
def parseReferences (text : String) (m : String → Option String) :
    List Reference :=
  scanRefs m text.data.length text.data

/-- Spec-side: the grantha abbreviation of a raw payload — everything before
the first `/` (the whole payload when there is no `/`). -/
def granthaAbbrOf (s : String) : String :=
  ⟨s.data.takeWhile (· ≠ '/')⟩

/-- Spec-side: the structural-path part of a raw payload — the text after the
first `/` (empty when there is no `/`). -/
def structuralPathOf (s : String) : String :=
  ⟨(s.data.dropWhile (· ≠ '/')).drop 1⟩

/-- Spec-side: replace every `/` and `-` separator by `.`. -/
def normalizeSeps (s : String) : String :=
  ⟨s.data.map fun c => if c = '/' ∨ c = '-' then '.' else c⟩

end GranthaExplorer.References

namespace GranthaExplorer.Data

/-!
## `lib/data.ts`

Embedding of the type definitions and the pure data operations of
`lib/data.ts`: `createAbbreviationMap`, `getAllPassagesForNavigation`,
`getPassageByRef`, `getPassageHierarchy` (with its inner recursive
`buildNestedGroups`), and the multi-part merge performed by `loadGrantha`.
Bookkeeping-only fields (`metadata`, `processing_pipeline`, `script`,
`language`) that no verified operation reads are not modelled.
-/

structure SanskritContent where
  devanagari : String
  roman : Option String := none
deriving Repr, DecidableEq

structure Content where
  sanskrit : SanskritContent
  english_translation : String
deriving Repr, DecidableEq

inductive PassageType where
  | main
  | prefatory
  | concluding
deriving Repr, DecidableEq

structure Passage where
  ref : String
  passage_type : PassageType
  label : Option String := none
  content : Content
  part_num : Option Nat := none
deriving Repr, DecidableEq

/-- `PrefatoryMaterial` (also used for `concluding_material`): like `Passage`
but with a required per-script label. -/
structure PrefatoryMaterial where
  ref : String
  label_devanagari : String
  label_roman : Option String := none
  content : Content
  part_num : Option Nat := none
deriving Repr, DecidableEq

/-- `StructureLevel`: `key`, per-script display names, optional children.
`children?: StructureLevel[]` is modelled as a plain list (absent ≙ `[]`,
which the code treats identically via `children && children.length > 0`). -/
inductive StructureLevel where
  | mk (key : String) (nameDevanagari : String) (nameRoman : Option String)
      (children : List StructureLevel)

def StructureLevel.key : StructureLevel → String
  | .mk k _ _ _ => k

def StructureLevel.nameDevanagari : StructureLevel → String
  | .mk _ d _ _ => d

def StructureLevel.children : StructureLevel → List StructureLevel
  | .mk _ _ _ cs => cs

structure Alias where
  aliasText : String
  scope : String
deriving Repr, DecidableEq

/-- `CommentaryPassage`.  The TypeScript interface declares no `part_num`
field; the optional field here (untouched by every modelled operation, so a
JSON value would pass through unchanged) makes the question "does the
assembler tag commentary passages with their part?" statable. -/
structure CommentaryPassage where
  ref : String
  sanskrit : SanskritContent
  english : String
  part_num : Option Nat := none
deriving Repr, DecidableEq

structure Commentary where
  commentary_id : String
  commentary_title : String
  commentator_devanagari : String
  commentator_latin : Option String := none
  passages : List CommentaryPassage
deriving Repr, DecidableEq

structure Grantha where
  id : String
  title : String
  title_deva : String
  title_iast : String
  grantha_id : String
  canonical_title : String
  aliases : List Alias
  text_type : String
  structure_levels : List StructureLevel
  prefatory_material : List PrefatoryMaterial
  passages : List Passage
  concluding_material : List PrefatoryMaterial
  commentaries : List Commentary

/-- One entry of `granthas-meta.json` (`GranthaMeta[granthaId]`). -/
structure GranthaMetaEntry where
  title_devanagari : String
  title_iast : String
  abbreviations_devanagari : List String
deriving Repr, DecidableEq

/-- `GranthaMeta`: a JS object keyed by grantha id, modelled as an
association list in key-enumeration order. -/
def GranthaMeta := List (String × GranthaMetaEntry)

/-- `createAbbreviationMap(meta, 'devanagari')`: `for (granthaId in meta)`,
then for each listed abbreviation `map[abbr] = granthaId` — an unconditional
dictionary write, so a later grantha silently overwrites an earlier one. -/
def createAbbreviationMap (meta : GranthaMeta) : String → Option String :=
  meta.foldl
    (fun m ge =>
      ge.2.abbreviations_devanagari.foldl
        (fun m abbr => fun k => if k = abbr then some ge.1 else m k) m)
    (fun _ => none)

/-- Element type of the `(Passage | PrefatoryMaterial)[]` union returned by
`getAllPassagesForNavigation`. -/
inductive NavPassage where
  | pass (p : Passage)
  | pre (p : PrefatoryMaterial)
deriving Repr, DecidableEq

def NavPassage.ref : NavPassage → String
  | .pass p => p.ref
  | .pre p => p.ref

/-- `getAllPassagesForNavigation`: prefatory, then main, then concluding. -/
def getAllPassagesForNavigation (g : Grantha) : List NavPassage :=
  g.prefatory_material.map NavPassage.pre ++ g.passages.map NavPassage.pass
    ++ g.concluding_material.map NavPassage.pre

/-- `getPassageByRef`: `.find()` over the navigation list. -/
def getPassageByRef (g : Grantha) (ref : String) : Option NavPassage :=
  (getAllPassagesForNavigation g).find? fun p => p.ref == ref

/-- `PassageGroup` as in the recursive hierarchy: either a leaf carrying
passages or an inner node carrying child groups (the code sets exactly one of
the two optional fields). -/
inductive PassageGroup where
  | leaf (level : String) (passages : List Passage)
  | node (level : String) (children : List PassageGroup)

def PassageGroup.level : PassageGroup → String
  | .leaf l _ => l
  | .node l _ => l

structure PassageHierarchy where
  prefatory : List PrefatoryMaterial
  main : List PassageGroup
  concluding : List PrefatoryMaterial

/-- `passage.ref.split('.')`. -/
def seglist (p : Passage) : List String :=
  jsSplit '.' p.ref

/-- The numeric sort key of a group key:
`parseInt(key.split(' ').pop() || '0')`, with `NaN` (made total as `0` here —
the comparator's behaviour on `NaN` is unspecified in JS, and every verified
statement restricts to numeral segments where it cannot arise). -/
def groupSortNum (key : String) : Int :=
  let tok := (jsSplit ' ' key).getLast?.getD ""
  (jsParseInt (if tok = "" then "0" else tok)).getD 0

/-- Stable ascending insertion (insert after equal keys), modelling the
stable numeric comparator sort `(a, b) => numA - numB`. -/
def insertAsc (key : String → Int) (x : String) : List String → List String
  | [] => [x]
  | y :: ys => if key x < key y then x :: y :: ys else y :: insertAsc key x ys

def sortAsc (key : String → Int) : List String → List String
  | [] => []
  | x :: xs => insertAsc key x (sortAsc key xs)

/-- The distinct values of ref segment `refLevel` over `passages`, in first
occurrence order — the enumeration order of the `groups` dictionary keys
(each key is `devanagariName ++ " " ++ segment`, so keys and segment values
are in bijection and grouping by either is the same partition). -/
def segVals (passages : List Passage) (refLevel : Nat) : List String :=
  firstDedup (passages.filterMap fun p => (seglist p).get? refLevel)

/-- `buildNestedGroups(passages, structureLevel, refLevel)`: group the
passages by ref segment `refLevel` (passages whose ref has too few segments
are skipped by the `refParts.length > refLevel` guard), sort group keys by
their numeric suffix, then recurse into `children[0]` or emit leaf groups. -/
def buildNestedGroups (passages : List Passage) :
    StructureLevel → Nat → List PassageGroup
  | .mk _ dev _ children, refLevel =>
    let sorted :=
      sortAsc (fun v => groupSortNum (dev ++ " " ++ v))
        (segVals passages refLevel)
    match children with
    | [] =>
      sorted.map fun v =>
        .leaf (dev ++ " " ++ v)
          (passages.filter fun p => (seglist p).get? refLevel == some v)
    | c :: _ =>
      sorted.map fun v =>
        .node (dev ++ " " ++ v)
          (buildNestedGroups
            (passages.filter fun p => (seglist p).get? refLevel == some v)
            c (refLevel + 1))

/-- `getPassageHierarchy`: hierarchical when `structure_levels` is non-empty,
otherwise a single flat "Passages" group. -/
def getPassageHierarchy (g : Grantha) : PassageHierarchy :=
  { prefatory := g.prefatory_material
    main :=
      match g.structure_levels with
      | [] => [.leaf "Passages" g.passages]
      | s0 :: _ => buildNestedGroups g.passages s0 0
    concluding := g.concluding_material }

end GranthaExplorer.Data

namespace GranthaExplorer.Data

/-!
## `loadGrantha` — multi-part assembly

`loadGrantha` fetches `metadata.json`, fetches every file in its `parts`
array (`parts.map(fetch…)` + `Promise.all`, which preserves `parts` order
regardless of arrival order), and merges.  The fetch layer is modelled as a
function from part file name to `Option` of parsed content; the in-memory
`granthaCache` as an association list threaded through the call.
-/

structure GranthaPartContent where
  prefatory_material : Option (List PrefatoryMaterial) := none
  passages : List Passage
  concluding_material : Option (List PrefatoryMaterial) := none
  commentaries : Option (List Commentary) := none
deriving Repr, DecidableEq

structure GranthaMetadataOnly where
  grantha_id : String
  canonical_title : String
  aliases : Option (List Alias) := none
  text_type : String
  structure_levels : List StructureLevel
  commentaries : Option (List Commentary) := none
  parts : List String

/-- The `mergedGrantha` initial value: metadata spread plus empty content
arrays; metadata-declared commentaries are deep-cloned with their passage
lists emptied. -/
def seedGrantha (md : GranthaMetadataOnly) : Grantha :=
  { id := md.grantha_id
    title := md.canonical_title
    title_deva := md.canonical_title
    title_iast := md.canonical_title
    grantha_id := md.grantha_id
    canonical_title := md.canonical_title
    aliases := md.aliases.getD []
    text_type := md.text_type
    structure_levels := md.structure_levels
    prefatory_material := []
    passages := []
    concluding_material := []
    commentaries := (md.commentaries.getD []).map fun c =>
      { c with passages := [] } }

/-- One step of the commentary merge
(`partContent.commentaries.forEach(commentaryPart => …)`): push the part's
passages onto the first existing commentary with the same `commentary_id`,
or append the part commentary itself when none exists.  Passages are pushed
unchanged — nothing is overwritten and nothing is tagged. -/
def addCommentaryPart : List Commentary → Commentary → List Commentary
  | [], cp => [cp]
  | c :: rest, cp =>
    if c.commentary_id == cp.commentary_id then
      { c with passages := c.passages ++ cp.passages } :: rest
    else c :: addCommentaryPart rest cp

/-- `allPartContents.forEach((partContent, index) => …)` body for one part:
`part_num = index + 1`; each passage collection is appended in order with
every element tagged `{...p, part_num}`; commentaries are merged by id. -/
def applyPart (acc : Grantha) (part_num : Nat) (pc : GranthaPartContent) :
    Grantha :=
  { acc with
    prefatory_material := acc.prefatory_material ++
      (pc.prefatory_material.getD []).map fun p =>
        { p with part_num := some part_num }
    passages := acc.passages ++
      pc.passages.map fun p => { p with part_num := some part_num }
    concluding_material := acc.concluding_material ++
      (pc.concluding_material.getD []).map fun p =>
        { p with part_num := some part_num }
    commentaries := (pc.commentaries.getD []).foldl addCommentaryPart
      acc.commentaries }

/-- The full merge of all part contents, in the order of the manifest's
`parts` array (the order `allPartContents` has after `Promise.all`). -/
def mergeGrantha (md : GranthaMetadataOnly) (parts : List GranthaPartContent) :
    Grantha :=
  parts.enum.foldl (fun acc ip => applyPart acc (ip.1 + 1) ip.2)
    (seedGrantha md)

/-- The per-part fetch with its error wrapper:
``fetch(...).then(res => { if (!res.ok) throw new Error(`Failed to load part
file ${partFileName} for grantha ${granthaId}`); return res.json(); })``. -/
def loadPart (granthaId : String) (partFetch : String → Option GranthaPartContent)
    (partFileName : String) : Except String GranthaPartContent :=
  match partFetch partFileName with
  | some pc => .ok pc
  | none =>
    .error ("Failed to load part file " ++ partFileName ++ " for grantha "
      ++ granthaId)

/-- `Promise.all` over the part fetches: the whole load fails with the first
failing part's error (modelling settlement in list order), and succeeds with
the contents in `parts` order otherwise. -/
def loadAllParts (granthaId : String)
    (partFetch : String → Option GranthaPartContent) :
    List String → Except String (List GranthaPartContent)
  | [] => .ok []
  | f :: rest =>
    match loadPart granthaId partFetch f with
    | .error e => .error e
    | .ok pc =>
      match loadAllParts granthaId partFetch rest with
      | .error e => .error e
      | .ok pcs => .ok (pc :: pcs)

/-- The multi-part branch of `loadGrantha`, with the cache threaded
explicitly: cache hit short-circuits; an empty `parts` array or any failing
part load is an error that leaves the cache untouched; on success the merged
grantha is cached and returned. -/
def loadGranthaMulti (cache : List (String × Grantha)) (granthaId : String)
    (md : GranthaMetadataOnly)
    (partFetch : String → Option GranthaPartContent) :
    Except String Grantha × List (String × Grantha) :=
  match cache.find? (fun e => e.1 == granthaId) with
  | some e => (.ok e.2, cache)
  | none =>
    if md.parts.isEmpty then
      (.error ("Multi-part grantha " ++ granthaId
        ++ " has no parts defined in metadata.json"), cache)
    else
      match loadAllParts granthaId partFetch md.parts with
      | .error e => (.error e, cache)
      | .ok pcs =>
        let g := mergeGrantha md pcs
        (.ok g, (granthaId, g) :: cache)

/-- Spec-side: the passages of every commentary in `cs` bearing id `cid`, in
list order.  Used to state the merge discipline independently of how many
entries share an id. -/
def passagesFor (cs : List Commentary) (cid : String) :
    List CommentaryPassage :=
  (cs.filter fun c => c.commentary_id == cid).flatMap Commentary.passages

end GranthaExplorer.Data

namespace GranthaExplorer.Converter

/-!
## Converter model (spec §4.1–§4.5)

The converter implementation (`tools/grantha_converter/hasher.py`,
`json_to_md.py`, `md_to_json.py`) is not part of the analysed tree — only its
README and the markup format document are.  Everything in this namespace is
modelled from the specification: serialization emits, per §4.3, a metadata
header (document id, title, commentary metadata, stored content hash)
followed by prefatory material, then each main passage with the selected
commentary passages at its ref rendered immediately after it, then concluding
material; parsing is, per §4.4, a single left-to-right pass driven by the
headers, accumulating fenced per-script content under the most recent header
and appending commentary passages to the commentary with the declared id
(seeded from the header's commentary metadata, created on first encounter
otherwise).  The markup is modelled at the granularity of its markers: one
`MLine` per header / fenced block / metadata header, so that reformatting
inside a block is already abstracted away and the §4.1 normalization carries
the whitespace-insensitivity.
-/

inductive PKind where
  | main
  | prefatory
  | concluding
deriving Repr, DecidableEq

/-- Modelled from the spec: a passage of §3 — ref, kind, optional label
(required for prefatory/concluding, not enforced by the type), per-script
content in a fixed script order, optional English translation. -/
structure CPassage where
  ref : String
  kind : PKind
  label : Option String := none
  perScript : List (String × String)
  english : Option String := none
deriving Repr, DecidableEq

/-- Modelled from the spec: a commentary passage (§3). -/
structure CCommentaryPassage where
  ref : String
  perScript : List (String × String)
  english : Option String := none
deriving Repr, DecidableEq

/-- Modelled from the spec: a commentary (§3); the commentator name plays no
role in serialization order or hashing and is folded into `title`. -/
structure CCommentary where
  id : String
  title : String
  passages : List CCommentaryPassage
deriving Repr, DecidableEq

/-- Modelled from the spec: a document (§3). -/
structure CDocument where
  id : String
  title : String
  prefatory : List CPassage
  main : List CPassage
  concluding : List CPassage
  commentaries : List CCommentary
deriving Repr, DecidableEq

/-- `commentaries: set<id> | "all" | none` of §4.3. -/
inductive CommentarySelection where
  | all
  | subset (ids : List String)
  | omitted
deriving Repr, DecidableEq

structure SerializeOptions where
  scripts : List String
  commentaries : CommentarySelection
deriving Repr, DecidableEq

/-- One markup element: the metadata header block, a passage heading, a
commentary heading (carrying the commentary id and ref), a fenced
single-script content block, or an English-translation block. -/
inductive MLine where
  | meta (docId docTitle : String) (commMeta : List (String × String))
      (storedHash : String)
  | pheader (kind : PKind) (ref : String) (label : Option String)
  | cheader (cid : String) (ref : String)
  | script (name : String) (text : String)
  | english (text : String)
deriving Repr, DecidableEq

/-! ### ContentHasher (§4.1) -/

/-- Modelled from the spec: characters stripped by the §4.1 normalization —
whitespace, sentence punctuation including danda and double danda, and
zero-width marks. -/
def strippedChar (c : Char) : Bool :=
  c = ' ' ∨ c = '\n' ∨ c = '\t' ∨ c = '\r' ∨
  c = '।' ∨ c = '॥' ∨ c = '.' ∨ c = ',' ∨ c = ';' ∨ c = ':' ∨
  c = '!' ∨ c = '?' ∨ c = '-' ∨ c = '|' ∨
  c = '‌' ∨ c = '‍' ∨ c = '﻿'

/-- Modelled from the spec: `ContentHasher.hash` — normalization followed by
a digest.  The digest is modelled as the identity on the normalized text (a
collision-free abstraction of the 256-bit digest; two texts hash equal here
exactly when their normalized forms coincide). -/
def hashText (s : String) : String :=
  ⟨s.data.filter fun c => ¬ strippedChar c⟩

/-- Total order on strings used for the §4.1 "main passages in ref-sorted
order" traversal (lexicographic on code points). -/
def charListLe : List Char → List Char → Bool
  | [], _ => true
  | _ :: _, [] => false
  | a :: as, b :: bs =>
    if a = b then charListLe as bs else decide (a < b)

def refLe (a b : String) : Bool := charListLe a.data b.data

def insertByRef (x : CPassage) : List CPassage → List CPassage
  | [] => [x]
  | y :: ys =>
    if refLe x.ref y.ref then x :: y :: ys else y :: insertByRef x ys

def sortByRef : List CPassage → List CPassage
  | [] => []
  | x :: xs => insertByRef x (sortByRef xs)

def passageText (p : CPassage) : String :=
  String.join (p.perScript.map Prod.snd) ++ p.english.getD ""
    ++ p.label.getD ""

def cpassageText (cp : CCommentaryPassage) : String :=
  String.join (cp.perScript.map Prod.snd) ++ cp.english.getD ""

/-- Modelled from the spec: `hashDocument` (§4.1) — concatenate all textual
content in the fixed traversal order (prefatory, main in ref-sorted order,
concluding, commentaries in declaration order; per-script contents in script
order followed by labels) and hash the result. -/
def hashDocument (D : CDocument) : String :=
  hashText (String.join (D.prefatory.map passageText)
    ++ String.join ((sortByRef D.main).map passageText)
    ++ String.join (D.concluding.map passageText)
    ++ String.join (D.commentaries.map fun c =>
        String.join (c.passages.map cpassageText)))

/-! ### DocumentToMarkup (§4.3) -/

def selectedIds (D : CDocument) (sel : CommentarySelection) : List String :=
  match sel with
  | .all => D.commentaries.map CCommentary.id
  | .subset ids => ids
  | .omitted => []

/-- The commentaries included under the options, in declaration order. -/
def selComms (D : CDocument) (O : SerializeOptions) : List CCommentary :=
  D.commentaries.filter fun c => selectedIds D O.commentaries |>.contains c.id

def emitContent (O : SerializeOptions) (perScript : List (String × String))
    (english : Option String) : List MLine :=
  (perScript.filter fun sc => O.scripts.contains sc.1).map
      (fun sc => MLine.script sc.1 sc.2)
    ++ (match english with
        | some t => [MLine.english t]
        | none => [])

def emitPassage (O : SerializeOptions) (p : CPassage) : List MLine :=
  .pheader p.kind p.ref p.label :: emitContent O p.perScript p.english

/-- The commentary passages at ref `r`, one block per passage: each selected
commentary in declaration order contributes its passages matching `r`
(§4.3 (5): rendered immediately after the corresponding main passage, tagged
with the commentary id). -/
def emitCommentAt (O : SerializeOptions) (cs : List CCommentary) (r : String) :
    List MLine :=
  cs.flatMap fun c =>
    (c.passages.filter fun cp => cp.ref == r).flatMap fun cp =>
      .cheader c.id cp.ref :: emitContent O cp.perScript cp.english

/-- The document restricted to the content included under the options: script
blocks outside `O.scripts` and commentaries outside the selection are the
content `serialize` omits. -/
def restrictPassage (O : SerializeOptions) (p : CPassage) : CPassage :=
  { p with perScript := p.perScript.filter fun sc => O.scripts.contains sc.1 }

def restrictCP (O : SerializeOptions) (cp : CCommentaryPassage) :
    CCommentaryPassage :=
  { cp with perScript := cp.perScript.filter fun sc => O.scripts.contains sc.1 }

def restrict (D : CDocument) (O : SerializeOptions) : CDocument :=
  { D with
    prefatory := D.prefatory.map (restrictPassage O)
    main := D.main.map (restrictPassage O)
    concluding := D.concluding.map (restrictPassage O)
    commentaries := (selComms D O).map fun c =>
      { c with passages := c.passages.map (restrictCP O) } }

/-- Modelled from the spec: `serialize(D, options)` (§4.3) — metadata header
(document id, title, commentary metadata for the selected commentaries,
stored content hash of the exported content), prefatory material, main
passages each followed by the selected commentary passages at its ref,
concluding material.  Deterministic by construction. -/
def serialize (D : CDocument) (O : SerializeOptions) : List MLine :=
  .meta D.id D.title ((selComms D O).map fun c => (c.id, c.title))
      (hashDocument (restrict D O)) ::
    (D.prefatory.flatMap (emitPassage O)
      ++ D.main.flatMap (fun p =>
          emitPassage O p ++ emitCommentAt O (selComms D O) p.ref)
      ++ D.concluding.flatMap (emitPassage O))

/-! ### MarkupToDocument (§4.4) -/

/-- The currently open header an incoming content block attaches to. -/
inductive Target where
  | closed
  | pass (kind : PKind) (ref : String) (label : Option String)
      (revScripts : List (String × String)) (english : Option String)
  | comm (cid : String) (ref : String)
      (revScripts : List (String × String)) (english : Option String)
deriving Repr, DecidableEq

structure ParseState where
  docId : String := ""
  docTitle : String := ""
  commMeta : List (String × String) := []
  revPref : List CPassage := []
  revMain : List CPassage := []
  revConcl : List CPassage := []
  revComm : List (String × CCommentaryPassage) := []
  cur : Target := .closed
deriving Repr, DecidableEq

/-- Finish the currently open passage/commentary block, appending it to the
collection its header declared. -/
def closeCur (st : ParseState) : ParseState :=
  match st.cur with
  | .closed => st
  | .pass k r lab revScripts eng =>
    let p : CPassage :=
      { ref := r, kind := k, label := lab,
        perScript := revScripts.reverse, english := eng }
    (match k with
     | .main => { st with revMain := p :: st.revMain, cur := .closed }
     | .prefatory => { st with revPref := p :: st.revPref, cur := .closed }
     | .concluding => { st with revConcl := p :: st.revConcl, cur := .closed })
  | .comm cid r revScripts eng =>
    let cp : CCommentaryPassage :=
      { ref := r, perScript := revScripts.reverse, english := eng }
    { st with revComm := (cid, cp) :: st.revComm, cur := .closed }

/-- One step of the single left-to-right pass: headers close the open block
and open a new one; content blocks accumulate under the open header (stray
content with no open header is ignored). -/
def step (st : ParseState) : MLine → ParseState
  | .meta did dt cm _ =>
    let st := closeCur st
    { st with docId := did, docTitle := dt, commMeta := cm }
  | .pheader k r lab =>
    let st := closeCur st
    { st with cur := .pass k r lab [] none }
  | .cheader cid r =>
    let st := closeCur st
    { st with cur := .comm cid r [] none }
  | .script n t =>
    (match st.cur with
     | .pass k r lab revScripts eng =>
       { st with cur := .pass k r lab ((n, t) :: revScripts) eng }
     | .comm cid r revScripts eng =>
       { st with cur := .comm cid r ((n, t) :: revScripts) eng }
     | .closed => st)
  | .english t =>
    (match st.cur with
     | .pass k r lab revScripts eng =>
       { st with cur := .pass k r lab revScripts (some (eng.getD t)) }
     | .comm cid r revScripts eng =>
       { st with cur := .comm cid r revScripts (some (eng.getD t)) }
     | .closed => st)

/-- Assemble the final document: passage lists in encounter order;
commentaries seeded from the metadata header's commentary metadata in its
declaration order, each holding its collected passages in encounter order; a
commentary id encountered in the body but absent from the metadata gets a
fresh entry (empty title) on first encounter, appended after the declared
ones. -/
def finalize (st0 : ParseState) : CDocument :=
  let st := closeCur st0
  let collected := st.revComm.reverse
  let declared := st.commMeta.map Prod.fst
  let extraIds :=
    firstDedup ((collected.map Prod.fst).filter fun cid =>
      ¬ declared.contains cid)
  { id := st.docId
    title := st.docTitle
    prefatory := st.revPref.reverse
    main := st.revMain.reverse
    concluding := st.revConcl.reverse
    commentaries :=
      st.commMeta.map (fun m =>
        { id := m.1, title := m.2
          passages := (collected.filter fun e => e.1 == m.1).map Prod.snd })
      ++ extraIds.map fun cid =>
        { id := cid, title := ""
          passages := (collected.filter fun e => e.1 == cid).map Prod.snd } }

/-- Modelled from the spec: `parse(markup)` (§4.4) — a single left-to-right
fold over the markup elements followed by assembly. -/
def parse (ls : List MLine) : CDocument :=
  finalize (ls.foldl step {})

/-- The §4.4 validity conditions under which the round trip is exact: every
passage's recorded kind matches the collection holding it; the selected
commentaries have pairwise distinct ids; and each selected commentary lists
its passages in main-passage order, every one at the ref of a main passage
(spec §3: a commentary passage "addresses a ref that should match an
existing Passage ref"). -/
def ValidFor (D : CDocument) (O : SerializeOptions) : Prop :=
  (∀ p ∈ D.prefatory, p.kind = .prefatory) ∧
  (∀ p ∈ D.main, p.kind = .main) ∧
  (∀ p ∈ D.concluding, p.kind = .concluding) ∧
  ((selComms D O).map CCommentary.id).Nodup ∧
  (∀ c ∈ selComms D O,
    D.main.flatMap (fun p => c.passages.filter fun cp => cp.ref == p.ref)
      = c.passages)

end GranthaExplorer.Converter

namespace GranthaExplorer.Resolver

/-!
## Structural-alias resolution (spec §4.6 step 4)

Modelled from the spec: no implementation of structural aliases exists in the
analysed tree — `lib/references.ts` stops at abbreviation resolution and path
normalization; the per-level alias table and its resolution are described by
the specification and the enhanced-reference design plan only.
-/

/-- Modelled from the spec: one entry of a document's structural-alias table —
`{alias, level, canonicalValue}`, `level` being the 1-based tree level the
alias names a value at. -/
structure StructuralAlias where
  aliasName : String
  level : Nat
  canonicalValue : String
deriving Repr, DecidableEq

/-- A path segment "parses as an integer": a non-empty run of digits. -/
def isIntegerSeg (s : String) : Bool :=
  s.data ≠ [] ∧ s.data.all GranthaExplorer.isDigitChar

/-- Modelled from the spec: resolve one path segment at its expected tree
level.  An integer segment is used verbatim; otherwise the alias must have
exactly one entry in the table and that entry must sit at the expected level
— no hit, a hit at a different level only, or several hits (in particular
across levels: ambiguity is a hard error, never guessed) make the segment,
and hence the whole reference, unresolvable. -/
def resolveSegment (table : List StructuralAlias) (expectedLevel : Nat)
    (seg : String) : Option String :=
  if isIntegerSeg seg then some seg
  else
    match table.filter fun a => a.aliasName == seg with
    | [a] => if a.level == expectedLevel then some a.canonicalValue else none
    | _ => none

/-- Modelled from the spec: resolve the segments of a citation path in turn,
segment `i` (0-based) at expected level `i + 1`; `none` marks the whole
reference unresolvable as soon as one segment fails. -/
def resolveSegsFrom (table : List StructuralAlias) :
    Nat → List String → Option (List String)
  | _, [] => some []
  | lvl, s :: rest =>
    match resolveSegment table lvl s with
    | none => none
    | some v =>
      match resolveSegsFrom table (lvl + 1) rest with
      | none => none
      | some vs => some (v :: vs)

/-- Modelled from the spec: resolve a whole structural path against a
document's alias table. -/
def resolvePath (table : List StructuralAlias) (segments : List String) :
    Option (List String) :=
  resolveSegsFrom table 1 segments

end GranthaExplorer.Resolver

namespace GranthaExplorer.Data

/-!
## Ref-depth validation (spec §4.2) and grouping observables
-/

/-- One `console.error` report of `validateStructureConsistency`
(`scripts/sort-granthas-meta.ts`, staged validator, lines 55–118), in
structured form. -/
inductive ValidationError where
  | missingStructureLevels (filename : String)
  | mainDepthMismatch (filename ref : String) (got expected : Nat)
  | nonNumericSegment (filename ref part : String)
  | commentaryDepthMismatch (filename ref : String) (got expected : Nat)
deriving Repr, DecidableEq

/-- The `while (current.children && current.children.length > 0)` walk of
`getStructureDepth` (`scripts/sort-granthas-meta.ts` lines 38–50): the
length of the `children[0]` chain. -/
def structureChainLen : StructureLevel → Nat
  | .mk _ _ _ [] => 1
  | .mk _ _ _ (c :: _) => 1 + structureChainLen c

/-- `getStructureDepth(levels)` (`scripts/sort-granthas-meta.ts` lines
38–50): `0` for a missing or empty array, else the `children[0]`-chain
length from the first level. -/
def getStructureDepth (levels : List StructureLevel) : Nat :=
  match levels with
  | [] => 0
  | l :: _ => structureChainLen l

/-- The regex test of `scripts/sort-granthas-meta.ts` line 89: a ref
segment matches iff it is a nonempty all-digit string. -/
def numericSegment (s : String) : Bool :=
  s.data ≠ [] ∧ s.data.all isDigitChar

/-- The reports the `passage_type === 'main'` branch
(`scripts/sort-granthas-meta.ts` lines 78–96) emits for one passage: a
depth mismatch when the segment count differs from the expected depth,
then one report per non-numeric segment, in segment order.  (The
prefatory/concluding entries of `allPassages` carry no `passage_type`
field, so this branch never fires for them and they contribute no
reports.) -/
def mainPassageErrors (filename : String) (expectedDepth : Nat)
    (p : Passage) : List ValidationError :=
  if p.passage_type = PassageType.main then
    (if (seglist p).length ≠ expectedDepth then
      [.mainDepthMismatch filename p.ref (seglist p).length expectedDepth]
    else [])
      ++ ((seglist p).filter fun part => ! numericSegment part).map
          fun part => .nonNumericSegment filename p.ref part
  else []

/-- `validateStructureConsistency(data, filename)`
(`scripts/sort-granthas-meta.ts` lines 55–118): the returned validity flag
(false exactly when some report was emitted) together with the list of
`console.error` reports, in emission order. -/
def validateStructureConsistency (g : Grantha) (filename : String) :
    Bool × List ValidationError :=
  if g.structure_levels.isEmpty then
    (false, [.missingStructureLevels filename])
  else
    let expectedDepth := getStructureDepth g.structure_levels
    let errs :=
      g.passages.flatMap (mainPassageErrors filename expectedDepth)
        ++ g.commentaries.flatMap fun c =>
          c.passages.flatMap fun cp =>
            if (jsSplit '.' cp.ref).length ≠ expectedDepth then
              [ValidationError.commentaryDepthMismatch filename cp.ref
                (jsSplit '.' cp.ref).length expectedDepth]
            else []
    (errs.isEmpty, errs)

/-- The display names along the first-child chain of a structure level — the
levels `buildNestedGroups` actually recurses through. -/
def chainNames : StructureLevel → List String
  | .mk _ d _ [] => [d]
  | .mk _ d _ (c :: _) => d :: chainNames c

/-- The depth of the grouping recursion rooted at a structure level. -/
def chainDepth (sl : StructureLevel) : Nat := (chainNames sl).length

mutual

/-- The leaf groups of a passage group, each with the path of group-key
segment values (the last space-separated token of each key on the path)
leading to it. -/
def leafEntries : PassageGroup → List (List String × List Passage)
  | .leaf key ps => [([(jsSplit ' ' key).getLast?.getD ""], ps)]
  | .node key children =>
    (flatLeaves children).map fun e =>
      ((jsSplit ' ' key).getLast?.getD "" :: e.1, e.2)

/-- All leaf groups of a group forest with their paths. -/
def flatLeaves : List PassageGroup → List (List String × List Passage)
  | [] => []
  | g :: gs => leafEntries g ++ flatLeaves gs

end

/-- `p`'s ref segments from position `lvl` start with `path` (so `p` belongs
under the group whose key path is `path`). -/
def matchSeg (p : Passage) (lvl : Nat) (path : List String) : Bool :=
  ((seglist p).drop lvl).take path.length == path

/-- Sibling groups are sorted strictly ascending by the numeric sort key of
their group key, recursively at every level. -/
def SortedSiblings : List PassageGroup → Prop
  | [] => True
  | g :: gs =>
    (∀ g' ∈ gs, groupSortNum g.level < groupSortNum g'.level) ∧
    (match g with
     | .leaf _ _ => True
     | .node _ children => SortedSiblings children) ∧
    SortedSiblings gs

end GranthaExplorer.Data

namespace GranthaExplorer.Data

/-- The grouping algorithm restated along the first-child chain of display
names — `buildNestedGroups` only ever recurses into `children[0]`, so the
chain determines its behaviour; proofs induct on this list form. -/
def buildChain (ps : List Passage) : List String → Nat → List PassageGroup
  | [], _ => []
  | [dev], refLevel =>
    (sortAsc (fun v => groupSortNum (dev ++ " " ++ v))
        (segVals ps refLevel)).map
      fun v =>
        .leaf (dev ++ " " ++ v)
          (ps.filter fun p => (seglist p).get? refLevel == some v)
  | dev :: rest :: more, refLevel =>
    (sortAsc (fun v => groupSortNum (dev ++ " " ++ v))
        (segVals ps refLevel)).map
      fun v =>
        .node (dev ++ " " ++ v)
          (buildChain
            (ps.filter fun p => (seglist p).get? refLevel == some v)
            (rest :: more) (refLevel + 1))

end GranthaExplorer.Data

namespace GranthaExplorer.Converter

/-! ### Proof infrastructure for the round trip -/

/-- Lines that close the currently open block before acting. -/
def isHeader : MLine → Prop
  | .meta _ _ _ _ => True
  | .pheader _ _ _ => True
  | .cheader _ _ => True
  | .script _ _ => False
  | .english _ => False

/-- The remaining input starts with a block-closing line (or is exhausted),
so an open block can be closed early without changing the outcome. -/
def headClosed : List MLine → Prop
  | [] => True
  | l :: _ => isHeader l

/-- Append a finished passage to the collection its kind declares, leaving
no block open. -/
def addP (st : ParseState) (p : CPassage) : ParseState :=
  match p.kind with
  | .main => { st with revMain := p :: st.revMain, cur := .closed }
  | .prefatory => { st with revPref := p :: st.revPref, cur := .closed }
  | .concluding => { st with revConcl := p :: st.revConcl, cur := .closed }

/-- Append a finished commentary passage, leaving no block open. -/
def addC (st : ParseState) (e : String × CCommentaryPassage) : ParseState :=
  { st with revComm := e :: st.revComm, cur := .closed }

/-- The `(commentary id, commentary passage)` pairs the serializer renders
after the main passage at ref `r`, in rendering order. -/
def pairsAt (cs : List CCommentary) (r : String) :
    List (String × CCommentaryPassage) :=
  cs.flatMap fun c =>
    (c.passages.filter fun cp => cp.ref == r).map fun cp => (c.id, cp)

/-- Process a chunk of markup and close whatever block it leaves open. -/
def run (st : ParseState) (ls : List MLine) : ParseState :=
  closeCur (ls.foldl step st)

/-- The markup block one commentary-passage pair serializes to. -/
def cblock (O : SerializeOptions) (e : String × CCommentaryPassage) :
    List MLine :=
  .cheader e.1 e.2.ref :: emitContent O e.2.perScript e.2.english

/-- The state transformer one serialized passage amounts to. -/
def stepAddP (O : SerializeOptions) (s : ParseState) (p : CPassage) :
    ParseState :=
  addP s (restrictPassage O p)

/-- The state transformer one serialized commentary block amounts to. -/
def stepAddC (O : SerializeOptions) (s : ParseState)
    (e : String × CCommentaryPassage) : ParseState :=
  addC s (e.1, restrictCP O e.2)

/-- The state transformer one main passage together with its trailing
commentary blocks amounts to. -/
def stepMain (O : SerializeOptions) (cs : List CCommentary)
    (s : ParseState) (p : CPassage) : ParseState :=
  (pairsAt cs p.ref).foldl (stepAddC O) (addP (closeCur s) (restrictPassage O p))

/-- The parser state reached after folding over a full serialization. -/
def finalState (D : CDocument) (O : SerializeOptions) : ParseState :=
  { docId := D.id
    docTitle := D.title
    commMeta := (selComms D O).map fun c => (c.id, c.title)
    revPref := (D.prefatory.map (restrictPassage O)).reverse
    revMain := (D.main.map (restrictPassage O)).reverse
    revConcl := (D.concluding.map (restrictPassage O)).reverse
    revComm := (D.main.flatMap fun p =>
        (pairsAt (selComms D O) p.ref).map fun e => (e.1, restrictCP O e.2)).reverse
    cur := .closed }

end GranthaExplorer.Converter

namespace GranthaExplorer

/-- The digit character of `m` (meaningful for `m < 10`). -/
def digitChar (m : Nat) : Char := Char.ofNat (48 + m)

end GranthaExplorer

namespace GranthaExplorer.Witnesses

/-!
## Concrete instances

Closed inputs used by witness and counterexample theorems.
-/

open GranthaExplorer.Data GranthaExplorer.Converter GranthaExplorer.Resolver

/-- A commentary text citing one in-library and one unknown grantha. -/
def wText : String :=
  "इति [छां.उ. १.१.१](ref:chando/1/1-1) तथा [XYZ](ref:XYZ/2.3) इति च"

/-- Abbreviation map knowing only `chando`. -/
def wMap : String → Option String := fun s =>
  if s = "chando" then some "chandogya-upanishad" else none

def wContent : Content :=
  { sanskrit := { devanagari := "पाठः" }, english_translation := "" }

def wPassage (r : String) : Passage :=
  { ref := r, passage_type := .main, content := wContent }

/-- Depth-2 structure tree (Adhyaya → Mantra). -/
def wTwoLevel : StructureLevel :=
  .mk "Adhyaya" "अध्यायः" none [.mk "Mantra" "मन्त्रः" none []]

def wPrefatory (r : String) : PrefatoryMaterial :=
  { ref := r, label_devanagari := "शान्तिपाठः", content := wContent }

/-- Grantha in which a prefatory item and a main passage share ref "1.1". -/
def wNavGrantha : Grantha :=
  { id := "g", title := "G", title_deva := "ग", title_iast := "g"
    grantha_id := "g", canonical_title := "G", aliases := []
    text_type := "upanishad", structure_levels := [wTwoLevel]
    prefatory_material := [wPrefatory "1.1"]
    passages := [wPassage "1.1", wPassage "1.2"]
    concluding_material := [], commentaries := [] }

/-- Passages exercising numeric group order (9 before 10) at depth 2. -/
def wGroupPassages : List Passage :=
  [wPassage "1.1", wPassage "10.2", wPassage "9.1", wPassage "2.4"]

/-- A main passage whose ref has one segment — too few for a depth-2 tree. -/
def wShortPassage : Passage := wPassage "1"

/-- Grantha whose only main passage violates the depth invariant. -/
def wShortGrantha : Grantha :=
  { wNavGrantha with prefatory_material := [], passages := [wShortPassage] }

def wCommentaryOf (cid : String) (refs : List String) : Commentary :=
  { commentary_id := cid, commentary_title := "टीका"
    commentator_devanagari := "व्याख्याता"
    passages := refs.map fun r =>
      { ref := r, sanskrit := { devanagari := "व्याख्या" }, english := "" } }

/-- Two part contents sharing commentary id `c1`. -/
def wPartA : GranthaPartContent :=
  { passages := [wPassage "1.1"]
    commentaries := some [wCommentaryOf "c1" ["1.1"]] }

def wPartB : GranthaPartContent :=
  { passages := [wPassage "2.1"]
    prefatory_material := some [wPrefatory "0.0"]
    commentaries := some [wCommentaryOf "c1" ["2.1"], wCommentaryOf "c2" ["2.1"]] }

def wMetadataOnly : GranthaMetadataOnly :=
  { grantha_id := "brihad", canonical_title := "बृहद्"
    text_type := "upanishad", structure_levels := [wTwoLevel]
    commentaries := some [wCommentaryOf "c1" []]
    parts := ["partB.json", "partA.json"] }

/-- Part fetch that knows `partB.json` but not `partA.json`. -/
def wPartFetch : String → Option GranthaPartContent := fun f =>
  if f = "partB.json" then some wPartB else none

/-- Structural-alias table with `वल्ली` ambiguous across levels 1 and 2. -/
def wAliasTable : List StructuralAlias :=
  [{ aliasName := "आन.", level := 1, canonicalValue := "2" },
   { aliasName := "वल्ली", level := 1, canonicalValue := "2" },
   { aliasName := "वल्ली", level := 2, canonicalValue := "1" }]

def wDocPref : CPassage :=
  { ref := "0.0", kind := .prefatory, label := some "शान्तिपाठः",
    perScript := [("devanagari", "ॐ पूर्णमदः।")], english := none }

def wDocMain1 : CPassage :=
  { ref := "1", kind := .main,
    perScript := [("devanagari", "ईशा वास्यमिदं सर्वम्।"), ("roman", "isa vasyam")],
    english := some "All this is pervaded." }

def wDocMain2 : CPassage :=
  { ref := "2", kind := .main,
    perScript := [("devanagari", "कुर्वन्नेवेह कर्माणि।")], english := none }

def wDocCP (r t : String) : CCommentaryPassage :=
  { ref := r, perScript := [("devanagari", t)], english := none }

def wDocComm : CCommentary :=
  { id := "vedanta-desika", title := "भाष्यम्",
    passages := [wDocCP "1" "व्याख्यानम्।", wDocCP "2" "द्वितीयव्याख्या।"] }

/-- A small document for the round-trip witness: prefatory, two main
passages, one commentary. -/
def wDoc : CDocument :=
  { id := "isavasya", title := "ईशावास्यम्", prefatory := [wDocPref],
    main := [wDocMain1, wDocMain2], concluding := [],
    commentaries := [wDocComm] }

def wOpts : SerializeOptions :=
  { scripts := ["devanagari"], commentaries := .all }

end GranthaExplorer.Witnesses

/-!
# Theorems
-/

namespace GranthaExplorer

/-! ## Utility lemmas on the string primitives -/

theorem charSplit_ne_nil (sep : Char) (cs : List Char) :
    charSplit sep cs ≠ [] := by
  induction cs with
  | nil => simp [charSplit]
  | cons c rest ih =>
    simp only [charSplit]
    split
    · simp
    · cases h : charSplit sep rest with
      | nil => simp
      | cons h t => simp [h]

theorem charSplit_cons_head (sep : Char) (cs : List Char) :
    ∃ t, charSplit sep cs = cs.takeWhile (· ≠ sep) :: t := by
  induction cs with
  | nil => exact ⟨[], rfl⟩
  | cons c rest ih =>
    by_cases hc : c = sep
    · refine ⟨charSplit sep rest, ?_⟩
      simp [charSplit, List.takeWhile_cons, hc]
    · obtain ⟨t, ht⟩ := ih
      refine ⟨t, ?_⟩
      simp only [charSplit, if_neg hc, ht, List.takeWhile_cons]
      simp [hc]

theorem joinSep_charSplit (sep : Char) (cs : List Char) :
    joinSep sep (charSplit sep cs) = cs := by
  induction cs with
  | nil => rfl
  | cons c rest ih =>
    by_cases hc : c = sep
    · simp only [charSplit, if_pos hc]
      cases h : charSplit sep rest with
      | nil => exact absurd h (charSplit_ne_nil sep rest)
      | cons h0 t =>
        rw [h] at ih
        simpa [joinSep, hc] using ih
    · simp only [charSplit, if_neg hc]
      cases h : charSplit sep rest with
      | nil => exact absurd h (charSplit_ne_nil sep rest)
      | cons h0 t =>
        rw [h] at ih
        cases t with
        | nil => simpa [joinSep] using ih
        | cons t0 ts => simpa [joinSep] using ih

/-- Dropping the first split component and re-joining gives the text after
the first separator occurrence. -/
theorem joinSep_drop_one (sep : Char) (cs : List Char) :
    joinSep sep ((charSplit sep cs).drop 1)
      = (cs.dropWhile (· ≠ sep)).drop 1 := by
  induction cs with
  | nil => rfl
  | cons c rest ih =>
    by_cases hc : c = sep
    · simp only [charSplit, if_pos hc, List.drop_one, List.tail_cons,
        List.dropWhile_cons]
      simp [joinSep_charSplit, hc]
    · simp only [charSplit, if_neg hc]
      cases h : charSplit sep rest with
      | nil => exact absurd h (charSplit_ne_nil sep rest)
      | cons h0 t =>
        rw [h] at ih
        simp only [List.drop_one, List.tail_cons] at ih ⊢
        simp only [List.dropWhile_cons]
        simp [hc, ih]

/-- Splitting a concatenation around an explicit separator splits both
halves. -/
theorem charSplit_append_sep (sep : Char) (l1 l2 : List Char) :
    charSplit sep (l1 ++ sep :: l2)
      = charSplit sep l1 ++ charSplit sep l2 := by
  induction l1 with
  | nil => simp [charSplit]
  | cons c rest ih =>
    by_cases hc : c = sep
    · simp [List.cons_append, charSplit, hc, ih]
    · simp only [List.cons_append, charSplit, if_neg hc]
      cases h : charSplit sep rest with
      | nil => exact absurd h (charSplit_ne_nil sep rest)
      | cons h0 t => simp [ih, h]

/-- A list without the separator splits as itself. -/
theorem charSplit_of_not_mem (sep : Char) (cs : List Char)
    (h : sep ∉ cs) : charSplit sep cs = [cs] := by
  induction cs with
  | nil => rfl
  | cons c rest ih =>
    simp only [List.mem_cons, not_or] at h
    have hr := ih h.2
    simp only [charSplit, hr]
    rw [if_neg (fun hh => h.1 hh.symm)]

theorem mem_firstDedupAux (l : List String) :
    ∀ seen x, x ∈ firstDedupAux seen l ↔ x ∈ l ∧ x ∉ seen := by
  induction l with
  | nil => simp [firstDedupAux]
  | cons a rest ih =>
    intro seen x
    by_cases ha : a ∈ seen
    · rw [firstDedupAux, if_pos ha, ih]
      constructor
      · rintro ⟨hx, hs⟩
        exact ⟨List.mem_cons_of_mem _ hx, hs⟩
      · rintro ⟨hx, hs⟩
        rcases List.mem_cons.mp hx with rfl | hx'
        · exact absurd ha hs
        · exact ⟨hx', hs⟩
    · rw [firstDedupAux, if_neg ha, List.mem_cons]
      constructor
      · rintro (rfl | hx)
        · exact ⟨List.mem_cons_self _ _, ha⟩
        · obtain ⟨hx', hs⟩ := (ih _ _).mp hx
          simp only [List.mem_cons, not_or] at hs
          exact ⟨List.mem_cons_of_mem _ hx', hs.2⟩
      · rintro ⟨hx, hs⟩
        by_cases hxa : x = a
        · exact Or.inl hxa
        · rcases List.mem_cons.mp hx with rfl | hx'
          · exact Or.inl rfl
          · refine Or.inr ((ih _ _).mpr ⟨hx', ?_⟩)
            simp [List.mem_cons, hxa, hs]

theorem mem_firstDedup (l : List String) (x : String) :
    x ∈ firstDedup l ↔ x ∈ l := by
  simp [firstDedup, mem_firstDedupAux]

theorem nodup_firstDedupAux (l : List String) :
    ∀ seen, (firstDedupAux seen l).Nodup := by
  induction l with
  | nil => intro seen; simp [firstDedupAux]
  | cons a rest ih =>
    intro seen
    by_cases ha : a ∈ seen
    · simp only [firstDedupAux, if_pos ha]; exact ih seen
    · simp only [firstDedupAux, if_neg ha, List.nodup_cons]
      refine ⟨?_, ih _⟩
      rw [mem_firstDedupAux]
      rintro ⟨-, hs⟩
      simp at hs

theorem nodup_firstDedup (l : List String) : (firstDedup l).Nodup :=
  nodup_firstDedupAux l []

end GranthaExplorer

namespace GranthaExplorer.Data

/-! ## C10 — `createAbbreviationMap` is last-writer-wins -/

theorem abbrWrite_eq (gid : String) (abbrs : List String) :
    ∀ (m : String → Option String) (k : String),
      (abbrs.foldl (fun m abbr => fun k => if k = abbr then some gid else m k)
        m) k = if k ∈ abbrs then some gid else m k := by
  induction abbrs with
  | nil => intro m k; simp
  | cons a as ih =>
    intro m k
    rw [List.foldl_cons, ih]
    by_cases hk : k ∈ as
    · simp [hk]
    · by_cases hka : k = a
      · simp [hk, hka]
      · simp [hk, hka]

theorem createAbbreviationMap_aux (meta : GranthaMeta) :
    ∀ (m0 : String → Option String) (abbr : String),
      (meta.foldl
        (fun m ge =>
          ge.2.abbreviations_devanagari.foldl
            (fun m a => fun k => if k = a then some ge.1 else m k) m) m0) abbr
      = match meta.reverse.find?
            (fun ge => decide (abbr ∈ ge.2.abbreviations_devanagari)) with
        | some ge => some ge.1
        | none => m0 abbr := by
  induction meta with
  | nil => intro m0 abbr; rfl
  | cons x rest ih =>
    intro m0 abbr
    rw [List.foldl_cons, ih, List.reverse_cons, List.find?_append]
    cases hr : rest.reverse.find?
        (fun ge => decide (abbr ∈ ge.2.abbreviations_devanagari)) with
    | some ge => simp [Option.or]
    | none =>
      simp only [Option.or, abbrWrite_eq]
      by_cases hx : abbr ∈ x.2.abbreviations_devanagari
      · simp [List.find?, hx]
      · simp [List.find?, hx]

/-- C10: the abbreviation map binds an abbreviation to the id of the **last**
grantha in enumeration order that lists it (`.find?` over the reversed
enumeration), silently overwriting earlier granthas; an abbreviation nobody
lists is absent.  In particular duplicates across granthas are never detected
or reported — the construction is total and errorless by its type. -/
theorem createAbbreviationMap_last_writer_wins (meta : GranthaMeta)
    (abbr : String) :
    createAbbreviationMap meta abbr
      = (meta.reverse.find?
          (fun ge => decide (abbr ∈ ge.2.abbreviations_devanagari))).map
          Prod.fst := by
  rw [createAbbreviationMap, createAbbreviationMap_aux]
  cases meta.reverse.find?
      (fun ge => decide (abbr ∈ ge.2.abbreviations_devanagari)) with
  | some ge => rfl
  | none => rfl

/-! ## C9 — `getPassageByRef` is a total, ordered lookup -/

/-- C9: `getPassageByRef` is `find?` over
prefatory ++ main ++ concluding: it returns `none` exactly when no navigable
passage bears the ref (never an error — the return type is the JS
`undefined`-style option); any hit is a member bearing the ref; and when a
prefatory item bears the ref it wins over mains and concludings sharing it. -/
theorem getPassageByRef_first_match (g : Grantha) (r : String) :
    (getPassageByRef g r = none ↔
      ∀ p ∈ getAllPassagesForNavigation g, p.ref ≠ r) ∧
    (∀ np, getPassageByRef g r = some np →
      np ∈ getAllPassagesForNavigation g ∧ np.ref = r) ∧
    (∀ pm ∈ g.prefatory_material, pm.ref = r →
      ∃ pm', pm' ∈ g.prefatory_material ∧ pm'.ref = r ∧
        getPassageByRef g r = some (.pre pm')) := by
  refine ⟨?_, ?_, ?_⟩
  · rw [getPassageByRef, List.find?_eq_none]
    constructor
    · intro h p hp
      have := h p hp
      simpa using this
    · intro h p hp
      simpa using h p hp
  · intro np h
    refine ⟨List.mem_of_find?_eq_some h, ?_⟩
    have := List.find?_some h
    simpa using this
  · intro pm hpm hr
    have hs : (List.find? (fun p => p.ref == r)
        (g.prefatory_material.map NavPassage.pre)).isSome := by
      rw [List.find?_isSome]
      exact ⟨.pre pm, List.mem_map_of_mem _ hpm, by simp [NavPassage.ref, hr]⟩
    obtain ⟨np, hnp⟩ := Option.isSome_iff_exists.mp hs
    have hmem := List.mem_of_find?_eq_some hnp
    obtain ⟨pm', hpm', rfl⟩ := List.mem_map.mp hmem
    have hrefs := List.find?_some hnp
    refine ⟨pm', hpm', by simpa [NavPassage.ref] using hrefs, ?_⟩
    rw [getPassageByRef, getAllPassagesForNavigation, List.append_assoc,
      List.find?_append, hnp]
    rfl

end GranthaExplorer.Data

namespace GranthaExplorer.Witnesses

/-- C9 witness: in `wNavGrantha` a prefatory item and a main passage share
ref "1.1"; the lookup returns the prefatory one. -/
theorem getPassageByRef_first_match_witness :
    ∃ pm', pm' ∈ wNavGrantha.prefatory_material ∧ pm'.ref = "1.1" ∧
      Data.getPassageByRef wNavGrantha "1.1" = some (.pre pm') :=
  (Data.getPassageByRef_first_match wNavGrantha "1.1").2.2
    (wPrefatory "1.1") (by decide) (by decide)

end GranthaExplorer.Witnesses

namespace GranthaExplorer.References

/-! ## C2 / C8 — `parseReferences` -/

/-- Every emitted reference is built by `mkRef` from some match. -/
theorem mem_scanRefs (m : String → Option String) :
    ∀ (fuel : Nat) (cs : List Char) (r : Reference),
      r ∈ scanRefs m fuel cs →
      ∃ display payload, r = mkRef m display payload := by
  intro fuel
  induction fuel with
  | zero => intro cs r h; simp [scanRefs] at h
  | succ fuel ih =>
    intro cs r h
    cases cs with
    | nil => simp [scanRefs] at h
    | cons c rest =>
      rw [scanRefs] at h
      by_cases hc : c = '['
      · rw [if_pos hc] at h
        cases ht : tryMatchAfterBracket rest with
        | some dpr =>
          obtain ⟨display, payload, after⟩ := dpr
          rw [ht] at h
          rcases List.mem_cons.mp h with rfl | h'
          · exact ⟨display, payload, rfl⟩
          · exact ih after r h'
        | none =>
          rw [ht] at h
          exact ih rest r h
      · rw [if_neg hc] at h
        exact ih rest r h

theorem mem_parseReferences (text : String) (m : String → Option String)
    (r : Reference) (h : r ∈ parseReferences text m) :
    ∃ display payload, r = mkRef m display payload :=
  mem_scanRefs m text.data.length text.data r h

theorem mkRef_rawRef (m : String → Option String) (display payload : List Char) :
    (mkRef m display payload).rawRef = ⟨payload⟩ := rfl

/-- The resolved grantha id of a built reference, in terms of the
recomputable abbreviation (head of the payload split = longest slash-free
prefix). -/
theorem mkRef_granthaId_eq (m : String → Option String)
    (display payload : List Char) :
    (mkRef m display payload).granthaId
      = match m (granthaAbbrOf ⟨payload⟩) with
        | some v => if v = "" then granthaAbbrOf ⟨payload⟩ else v
        | none => granthaAbbrOf ⟨payload⟩ := by
  obtain ⟨t, ht⟩ := charSplit_cons_head '/' payload
  simp only [mkRef, granthaAbbrOf, ht]

theorem mkRef_path_eq (m : String → Option String)
    (display payload : List Char) :
    (mkRef m display payload).path
      = ⟨(joinSep '/' ((charSplit '/' payload).drop 1)).map
          fun c => if c = '/' ∨ c = '-' then '.' else c⟩ := rfl

/-- C2: reference parsing is total by construction (a plain function into
`List Reference` — no exception channel), its match set does not depend on
the abbreviation map (so a citation with an unknown abbreviation is still
returned, not rejected), and an abbreviation absent from the map — or mapped
to the falsy empty string — is passed through verbatim as the resolved
`granthaId`. -/
theorem parseReferences_total_unknown_passthrough (text : String)
    (m m' : String → Option String) :
    (∀ r ∈ parseReferences text m,
      (m (granthaAbbrOf r.rawRef) = none ∨
        m (granthaAbbrOf r.rawRef) = some "") →
      r.granthaId = granthaAbbrOf r.rawRef) ∧
    (parseReferences text m).map
        (fun r => (r.fullMatch, r.displayText, r.rawRef))
      = (parseReferences text m').map
        (fun r => (r.fullMatch, r.displayText, r.rawRef)) := by
  constructor
  · intro r hr hm
    obtain ⟨display, payload, rfl⟩ := mem_parseReferences text m r hr
    rw [mkRef_rawRef] at hm
    rw [mkRef_rawRef, mkRef_granthaId_eq]
    rcases hm with hm | hm <;> simp [hm]
  · show (scanRefs m text.data.length text.data).map _
      = (scanRefs m' text.data.length text.data).map _
    generalize text.data = cs
    generalize cs.length = fuel
    induction fuel generalizing cs with
    | zero => simp [scanRefs]
    | succ fuel ih =>
      cases cs with
      | nil => simp [scanRefs]
      | cons c rest =>
        rw [scanRefs, scanRefs]
        by_cases hc : c = '['
        · rw [if_pos hc, if_pos hc]
          cases ht : tryMatchAfterBracket rest with
          | some dpr =>
            obtain ⟨display, payload, after⟩ := dpr
            simpa [mkRef] using ih after
          | none => exact ih rest
        · rw [if_neg hc, if_neg hc]
          exact ih rest

/-- C8: the normalized `path` of every parsed reference is the text of the
raw payload after the first `/` with every slash and hyphen replaced by a
dot. -/
theorem parseReferences_path_normalization (text : String)
    (m : String → Option String) :
    ∀ r ∈ parseReferences text m,
      r.path = normalizeSeps (structuralPathOf r.rawRef) := by
  intro r hr
  obtain ⟨display, payload, rfl⟩ := mem_parseReferences text m r hr
  rw [mkRef_rawRef, mkRef_path_eq, joinSep_drop_one]
  rfl

end GranthaExplorer.References

namespace GranthaExplorer.Witnesses

open GranthaExplorer.References

/-- C2 witness: in `wText` the unknown abbreviation `XYZ` is passed through
as the resolved grantha id while the known one resolves; both citations are
returned whatever the map knows. -/
theorem parseReferences_total_unknown_passthrough_witness :
    (∃ r ∈ parseReferences wText wMap,
      (wMap (granthaAbbrOf r.rawRef) = none ∨
        wMap (granthaAbbrOf r.rawRef) = some "") ∧
      r.granthaId = granthaAbbrOf r.rawRef ∧ r.granthaId = "XYZ") ∧
    (parseReferences wText wMap).map
        (fun r => (r.fullMatch, r.displayText, r.rawRef))
      = (parseReferences wText (fun _ => none)).map
        (fun r => (r.fullMatch, r.displayText, r.rawRef)) := by
  constructor
  · obtain ⟨r, hr, heq⟩ :
        ∃ r ∈ parseReferences wText wMap,
          r.rawRef = "XYZ/2.3" ∧ r.granthaId = "XYZ" := by decide
    refine ⟨r, hr, ?_, ?_, heq.2⟩
    · left
      rw [heq.1]; rfl
    · have := (parseReferences_total_unknown_passthrough wText wMap wMap).1
      refine this r hr ?_
      left
      rw [heq.1]; rfl
  · exact (parseReferences_total_unknown_passthrough wText wMap
      (fun _ => none)).2

/-- C8 witness: the citation `[XYZ](ref:XYZ/2.3)` in `wText` gets path
`"2.3"`, the payload after the abbreviation with separators dotted. -/
theorem parseReferences_path_normalization_witness :
    ∃ r ∈ parseReferences wText wMap,
      r.path = normalizeSeps (structuralPathOf r.rawRef) ∧ r.path = "1.1.1" := by
  obtain ⟨r, hr, hp⟩ :
      ∃ r ∈ parseReferences wText wMap, r.path = "1.1.1" := by decide
  exact ⟨r, hr, parseReferences_path_normalization wText wMap r hr, hp⟩

end GranthaExplorer.Witnesses

namespace GranthaExplorer.Data

/-! ## C6 — assembly is all-or-nothing -/

/-- If any part fetch fails, loading all parts fails with the error naming
the first failing part in manifest order. -/
theorem loadAllParts_error (granthaId : String)
    (partFetch : String → Option GranthaPartContent) :
    ∀ parts : List String, (∃ f ∈ parts, partFetch f = none) →
      ∃ f ∈ parts, partFetch f = none ∧
        loadAllParts granthaId partFetch parts
          = .error ("Failed to load part file " ++ f ++ " for grantha "
              ++ granthaId) := by
  intro parts
  induction parts with
  | nil => rintro ⟨f, hf, -⟩; simp at hf
  | cons p rest ih =>
    rintro ⟨f, hf, hfail⟩
    by_cases hp : partFetch p = none
    · refine ⟨p, List.mem_cons_self _ _, hp, ?_⟩
      simp [loadAllParts, loadPart, hp]
    · obtain ⟨pc, hpc⟩ := Option.ne_none_iff_exists'.mp hp
      have hfrest : f ∈ rest := by
        rcases List.mem_cons.mp hf with rfl | h
        · exact absurd hfail hp
        · exact h
      obtain ⟨f', hf', hfail', herr⟩ := ih ⟨f, hfrest, hfail⟩
      refine ⟨f', List.mem_cons_of_mem _ hf', hfail', ?_⟩
      simp [loadAllParts, loadPart, hpc, herr]

/-- C6: with the grantha not in the cache and some listed part failing to
load, the multi-part loader returns an error naming a failing part file (the
first in manifest order), produces no document, and leaves the cache exactly
as it was — in particular nothing is stored under the grantha id. -/
theorem loadGranthaMulti_all_or_nothing (cache : List (String × Grantha))
    (granthaId : String) (md : GranthaMetadataOnly)
    (partFetch : String → Option GranthaPartContent)
    (hmiss : cache.find? (fun e => e.1 == granthaId) = none)
    (hfail : ∃ f ∈ md.parts, partFetch f = none) :
    ∃ f ∈ md.parts, partFetch f = none ∧
      loadGranthaMulti cache granthaId md partFetch
        = (.error ("Failed to load part file " ++ f ++ " for grantha "
            ++ granthaId), cache) := by
  obtain ⟨f, hf, hfail', herr⟩ := loadAllParts_error granthaId partFetch
    md.parts hfail
  have hne : ¬ md.parts.isEmpty := by
    cases h : md.parts with
    | nil => rw [h] at hf; simp at hf
    | cons a l => simp
  refine ⟨f, hf, hfail', ?_⟩
  rw [loadGranthaMulti, hmiss]
  simp only [if_neg hne, herr]

end GranthaExplorer.Data

namespace GranthaExplorer.Witnesses

/-- C6 witness: `wMetadataOnly` lists `partB.json` then `partA.json`;
`wPartFetch` cannot load `partA.json`, so the load fails naming it and the
(empty) cache stays empty. -/
theorem loadGranthaMulti_all_or_nothing_witness :
    ([] : List (String × Data.Grantha)).find? (fun e => e.1 == "brihad") = none
    ∧ (∃ f ∈ wMetadataOnly.parts, wPartFetch f = none) ∧
    ∃ f ∈ wMetadataOnly.parts, wPartFetch f = none ∧
      Data.loadGranthaMulti [] "brihad" wMetadataOnly wPartFetch
        = (.error ("Failed to load part file " ++ f ++ " for grantha "
            ++ "brihad"), []) :=
  ⟨rfl, ⟨"partA.json", by decide, by decide⟩,
    Data.loadGranthaMulti_all_or_nothing [] "brihad" wMetadataOnly wPartFetch
      rfl ⟨"partA.json", by decide, by decide⟩⟩

end GranthaExplorer.Witnesses

namespace GranthaExplorer.Data

/-! ## C5 — multi-part merge discipline -/

def idsOf (cs : List Commentary) : List String :=
  cs.map Commentary.commentary_id

theorem passagesFor_nil (cid : String) : passagesFor [] cid = [] := rfl

theorem passagesFor_cons (c : Commentary) (cs : List Commentary)
    (cid : String) :
    passagesFor (c :: cs) cid
      = (if c.commentary_id == cid then c.passages else [])
        ++ passagesFor cs cid := by
  by_cases h : c.commentary_id == cid
  · simp [passagesFor, List.filter_cons, h]
  · simp [passagesFor, List.filter_cons, h]

theorem passagesFor_eq_nil_of_not_mem (cs : List Commentary) (cid : String)
    (h : cid ∉ idsOf cs) : passagesFor cs cid = [] := by
  induction cs with
  | nil => rfl
  | cons c rest ih =>
    simp only [idsOf, List.map_cons, List.mem_cons, not_or] at h
    rw [passagesFor_cons, if_neg (by simpa using Ne.symm h.1),
      ih (by simpa [idsOf] using h.2)]
    rfl

theorem idsOf_addCommentaryPart (cs : List Commentary) (c : Commentary) :
    idsOf (addCommentaryPart cs c)
      = if c.commentary_id ∈ idsOf cs then idsOf cs
        else idsOf cs ++ [c.commentary_id] := by
  induction cs with
  | nil => simp [addCommentaryPart, idsOf]
  | cons c' rest ih =>
    by_cases h : c'.commentary_id == c.commentary_id
    · have he : c.commentary_id = c'.commentary_id := (eq_of_beq h).symm
      simp [addCommentaryPart, h, idsOf, he]
    · have hne : c.commentary_id ≠ c'.commentary_id := by
        intro hc
        exact h (by simp [hc])
      simp only [addCommentaryPart, if_neg h, idsOf, List.map_cons]
      simp only [idsOf] at ih
      rw [ih]
      by_cases hm : c.commentary_id ∈ rest.map Commentary.commentary_id
      · simp [hm, List.mem_cons, hne]
      · simp [hm, List.mem_cons, hne]

theorem nodup_idsOf_addCommentaryPart (cs : List Commentary) (c : Commentary)
    (h : (idsOf cs).Nodup) : (idsOf (addCommentaryPart cs c)).Nodup := by
  rw [idsOf_addCommentaryPart]
  by_cases hm : c.commentary_id ∈ idsOf cs
  · simpa [hm] using h
  · simp only [if_neg hm]
    rw [List.nodup_append]
    refine ⟨h, List.nodup_singleton _, ?_⟩
    intro x hx hc
    exact hm (List.mem_singleton.mp hc ▸ hx)

theorem passagesFor_addCommentaryPart (cs : List Commentary) (c : Commentary)
    (cid : String) (hnd : (idsOf cs).Nodup) :
    passagesFor (addCommentaryPart cs c) cid
      = passagesFor cs cid
        ++ (if c.commentary_id == cid then c.passages else []) := by
  induction cs with
  | nil =>
    rw [addCommentaryPart, passagesFor_cons, passagesFor_nil]
    simp
  | cons c' rest ih =>
    simp only [idsOf, List.map_cons, List.nodup_cons] at hnd
    by_cases h : c'.commentary_id == c.commentary_id
    · have he : c'.commentary_id = c.commentary_id := eq_of_beq h
      simp only [addCommentaryPart, if_pos h]
      rw [passagesFor_cons, passagesFor_cons]
      by_cases hcid : c'.commentary_id == cid
      · have he2 : c'.commentary_id = cid := eq_of_beq hcid
        have hrest : passagesFor rest cid = [] :=
          passagesFor_eq_nil_of_not_mem rest cid (he2 ▸ hnd.1)
        have hc : (c.commentary_id == cid) = true := by
          rw [← he]; exact hcid
        simp [hcid, hc, hrest]
      · have hc : ¬ ((c.commentary_id == cid) = true) := by
          rw [← he]; exact hcid
        simp [hcid, hc]
    · simp only [addCommentaryPart, if_neg h]
      rw [passagesFor_cons, passagesFor_cons, ih hnd.2, List.append_assoc]

theorem passagesFor_foldl_addCommentaryPart (l : List Commentary) :
    ∀ (cs : List Commentary), (idsOf cs).Nodup →
      (∀ cid, passagesFor (l.foldl addCommentaryPart cs) cid
        = passagesFor cs cid ++ passagesFor l cid) ∧
      (idsOf (l.foldl addCommentaryPart cs)).Nodup := by
  induction l with
  | nil => intro cs h; exact ⟨fun cid => by simp [passagesFor_nil], h⟩
  | cons c l' ih =>
    intro cs h
    rw [List.foldl_cons]
    obtain ⟨hpf, hnd⟩ := ih (addCommentaryPart cs c)
      (nodup_idsOf_addCommentaryPart cs c h)
    refine ⟨fun cid => ?_, hnd⟩
    rw [hpf cid, passagesFor_addCommentaryPart cs c cid h,
      passagesFor_cons, List.append_assoc]

theorem applyPart_passages (acc : Grantha) (k : Nat)
    (pc : GranthaPartContent) :
    (applyPart acc k pc).passages
      = acc.passages ++ pc.passages.map fun p =>
          { p with part_num := some k } := rfl

theorem mergeGrantha_aux_passages (parts : List GranthaPartContent) :
    ∀ (n : Nat) (acc : Grantha),
      ((List.enumFrom n parts).foldl
        (fun acc ip => applyPart acc (ip.1 + 1) ip.2) acc).passages
      = acc.passages ++ (List.enumFrom n parts).flatMap fun ip =>
          ip.2.passages.map fun p => { p with part_num := some (ip.1 + 1) } := by
  induction parts with
  | nil => intro n acc; simp
  | cons pc rest ih =>
    intro n acc
    rw [List.enumFrom_cons, List.foldl_cons, ih, applyPart_passages]
    simp [List.append_assoc]

theorem mergeGrantha_aux_prefatory (parts : List GranthaPartContent) :
    ∀ (n : Nat) (acc : Grantha),
      ((List.enumFrom n parts).foldl
        (fun acc ip => applyPart acc (ip.1 + 1) ip.2) acc).prefatory_material
      = acc.prefatory_material ++ (List.enumFrom n parts).flatMap fun ip =>
          (ip.2.prefatory_material.getD []).map fun p =>
            { p with part_num := some (ip.1 + 1) } := by
  induction parts with
  | nil => intro n acc; simp
  | cons pc rest ih =>
    intro n acc
    rw [List.enumFrom_cons, List.foldl_cons, ih]
    simp [applyPart, List.append_assoc]

theorem mergeGrantha_aux_concluding (parts : List GranthaPartContent) :
    ∀ (n : Nat) (acc : Grantha),
      ((List.enumFrom n parts).foldl
        (fun acc ip => applyPart acc (ip.1 + 1) ip.2) acc).concluding_material
      = acc.concluding_material ++ (List.enumFrom n parts).flatMap fun ip =>
          (ip.2.concluding_material.getD []).map fun p =>
            { p with part_num := some (ip.1 + 1) } := by
  induction parts with
  | nil => intro n acc; simp
  | cons pc rest ih =>
    intro n acc
    rw [List.enumFrom_cons, List.foldl_cons, ih]
    simp [applyPart, List.append_assoc]

theorem mergeGrantha_aux_commentaries (parts : List GranthaPartContent) :
    ∀ (n : Nat) (acc : Grantha), (idsOf acc.commentaries).Nodup →
      (∀ cid, passagesFor
        ((List.enumFrom n parts).foldl
          (fun acc ip => applyPart acc (ip.1 + 1) ip.2) acc).commentaries cid
        = passagesFor acc.commentaries cid
          ++ parts.flatMap fun pc =>
              passagesFor (pc.commentaries.getD []) cid) ∧
      (idsOf ((List.enumFrom n parts).foldl
        (fun acc ip => applyPart acc (ip.1 + 1) ip.2) acc).commentaries).Nodup := by
  induction parts with
  | nil => intro n acc h; exact ⟨fun cid => by simp, h⟩
  | cons pc rest ih =>
    intro n acc h
    rw [List.enumFrom_cons, List.foldl_cons]
    have happ : (applyPart acc (n + 1) pc).commentaries
        = (pc.commentaries.getD []).foldl addCommentaryPart
            acc.commentaries := rfl
    obtain ⟨hstep, hndstep⟩ :=
      passagesFor_foldl_addCommentaryPart (pc.commentaries.getD [])
        acc.commentaries h
    obtain ⟨hrest, hndrest⟩ := ih (n + 1) (applyPart acc (n + 1) pc)
      (by rw [happ]; exact hndstep)
    refine ⟨fun cid => ?_, hndrest⟩
    rw [hrest cid, happ, hstep cid, List.flatMap_cons, List.append_assoc]

theorem seed_passagesFor (md : GranthaMetadataOnly) (cid : String) :
    passagesFor (seedGrantha md).commentaries cid = [] := by
  show passagesFor ((md.commentaries.getD []).map fun c =>
    { c with passages := [] }) cid = []
  induction md.commentaries.getD [] with
  | nil => rfl
  | cons c rest ih =>
    rw [List.map_cons, passagesFor_cons]
    by_cases h : c.commentary_id == cid <;> simp [h, ih]

theorem seed_idsOf (md : GranthaMetadataOnly) :
    idsOf (seedGrantha md).commentaries
      = (md.commentaries.getD []).map Commentary.commentary_id := by
  show idsOf ((md.commentaries.getD []).map fun c =>
    { c with passages := [] }) = _
  induction md.commentaries.getD [] with
  | nil => rfl
  | cons c rest ih => simp only [idsOf, List.map_cons] at ih ⊢; rw [ih]

/-- C5 (amended): the assembler processes parts exactly in manifest order —
each passage collection of the result is the in-order concatenation of the
parts' collections, every passage (prefatory, main, concluding) tagged with
its 1-based part number — and commentaries with the same id are merged by
concatenating their passage lists across parts in part order, never by
overwriting; the commentary passages themselves are carried over verbatim,
so (contrary to the original claim) they are **not** tagged with the part
they came from. -/
theorem multiPart_assembly_order_and_merge (md : GranthaMetadataOnly)
    (parts : List GranthaPartContent)
    (hids : ((md.commentaries.getD []).map Commentary.commentary_id).Nodup) :
    (mergeGrantha md parts).passages
      = parts.enum.flatMap (fun ip =>
          ip.2.passages.map fun p => { p with part_num := some (ip.1 + 1) }) ∧
    (mergeGrantha md parts).prefatory_material
      = parts.enum.flatMap (fun ip =>
          (ip.2.prefatory_material.getD []).map fun p =>
            { p with part_num := some (ip.1 + 1) }) ∧
    (mergeGrantha md parts).concluding_material
      = parts.enum.flatMap (fun ip =>
          (ip.2.concluding_material.getD []).map fun p =>
            { p with part_num := some (ip.1 + 1) }) ∧
    ∀ cid, passagesFor (mergeGrantha md parts).commentaries cid
      = parts.flatMap fun pc => passagesFor (pc.commentaries.getD []) cid := by
  have hseed : (idsOf (seedGrantha md).commentaries).Nodup := by
    rw [seed_idsOf]; exact hids
  refine ⟨?_, ?_, ?_, fun cid => ?_⟩
  · rw [mergeGrantha, List.enum, mergeGrantha_aux_passages]
    simp [seedGrantha]
  · rw [mergeGrantha, List.enum, mergeGrantha_aux_prefatory]
    simp [seedGrantha]
  · rw [mergeGrantha, List.enum, mergeGrantha_aux_concluding]
    simp [seedGrantha]
  · rw [mergeGrantha, List.enum,
      (mergeGrantha_aux_commentaries parts 0 (seedGrantha md) hseed).1 cid,
      seed_passagesFor]
    rfl

end GranthaExplorer.Data

namespace GranthaExplorer.Witnesses

/-- C5 counterexample: merging `wMetadataOnly` with parts
`[wPartB, wPartA]` tags every main passage with its part number, but the
commentary passages of the merged commentaries carry no part tag at all —
refuting "tags … every commentary passage with the identifier of the part it
came from" at this input. -/
theorem multiPart_commentary_tagging_counterexample :
    ((Data.mergeGrantha wMetadataOnly [wPartB, wPartA]).passages.all
      fun p => p.part_num.isSome) = true ∧
    ¬ ∀ cp ∈ (Data.mergeGrantha wMetadataOnly [wPartB, wPartA]).commentaries.flatMap
        Data.Commentary.passages, cp.part_num.isSome := by
  constructor
  · decide
  · decide

/-- C5 witness for the amended claim, at the two-part instance whose
manifest order `[partB, partA]` is the reverse of the lexical order. -/
theorem multiPart_assembly_order_and_merge_witness :
    ((wMetadataOnly.commentaries.getD []).map
      Data.Commentary.commentary_id).Nodup ∧
    ∀ cid, Data.passagesFor
        (Data.mergeGrantha wMetadataOnly [wPartB, wPartA]).commentaries cid
      = [wPartB, wPartA].flatMap fun pc =>
          Data.passagesFor (pc.commentaries.getD []) cid :=
  ⟨by decide,
    (Data.multiPart_assembly_order_and_merge wMetadataOnly [wPartB, wPartA]
      (by decide)).2.2.2⟩

end GranthaExplorer.Witnesses

namespace GranthaExplorer.Resolver

/-! ## C3 — level-respecting structural-alias resolution -/

/-- Resolving a list of all-integer segments from any starting level returns
them verbatim. -/
theorem resolveSegsFrom_all_int (table : List StructuralAlias) :
    ∀ (segs : List String) (lvl : Nat), (∀ s ∈ segs, isIntegerSeg s) →
      resolveSegsFrom table lvl segs = some segs := by
  intro segs
  induction segs with
  | nil => intro lvl _; rfl
  | cons s rest ih =>
    intro lvl h
    have hs : isIntegerSeg s := h s (List.mem_cons_self _ _)
    rw [resolveSegsFrom, resolveSegment, if_pos hs,
      ih (lvl + 1) fun x hx => h x (List.mem_cons_of_mem _ hx)]

/-- If one segment fails to resolve at its expected level, the whole path is
unresolvable. -/
theorem resolveSegsFrom_none (table : List StructuralAlias) :
    ∀ (segs : List String) (lvl i : Nat) (s : String),
      segs.get? i = some s → resolveSegment table (lvl + i) s = none →
      resolveSegsFrom table lvl segs = none := by
  intro segs
  induction segs with
  | nil => intro lvl i s h; simp at h
  | cons s0 rest ih =>
    intro lvl i s hget hns
    cases i with
    | zero =>
      simp only [List.get?_cons_zero, Option.some.injEq] at hget
      subst hget
      have hns' : resolveSegment table lvl s0 = none := by simpa using hns
      rw [resolveSegsFrom, hns']
    | succ j =>
      simp only [List.get?_cons_succ] at hget
      rw [resolveSegsFrom]
      cases h0 : resolveSegment table lvl s0 with
      | none => rfl
      | some v =>
        have : lvl + (j + 1) = (lvl + 1) + j := by omega
        rw [ih (lvl + 1) j s hget (by rw [← this]; exact hns)]

/-- A successful resolution is positionwise: same length, and integer
segments are reproduced verbatim. -/
theorem resolveSegsFrom_some (table : List StructuralAlias) :
    ∀ (segs out : List String) (lvl : Nat),
      resolveSegsFrom table lvl segs = some out →
      out.length = segs.length ∧
      ∀ i s, segs.get? i = some s → isIntegerSeg s → out.get? i = some s := by
  intro segs
  induction segs with
  | nil =>
    intro out lvl h
    simp only [resolveSegsFrom, Option.some.injEq] at h
    subst h
    exact ⟨rfl, fun i s h => by simp at h⟩
  | cons s0 rest ih =>
    intro out lvl h
    rw [resolveSegsFrom] at h
    cases h0 : resolveSegment table lvl s0 with
    | none => rw [h0] at h; exact absurd h (by simp)
    | some v =>
      rw [h0] at h
      cases hr : resolveSegsFrom table (lvl + 1) rest with
      | none => rw [hr] at h; exact absurd h (by simp)
      | some vs =>
        rw [hr] at h
        simp only [Option.some.injEq] at h
        subst h
        obtain ⟨hlen, hint⟩ := ih vs (lvl + 1) hr
        refine ⟨by simp [hlen], fun i s hget hs => ?_⟩
        cases i with
        | zero =>
          simp only [List.get?_cons_zero, Option.some.injEq] at hget
          subst hget
          rw [resolveSegment, if_pos hs] at h0
          simpa using h0.symm
        | succ j =>
          simp only [List.get?_cons_succ] at hget ⊢
          exact hint j s hget hs

/-- A non-integer segment whose filtered hit list is not a singleton (no
hit, or several — in particular hits on two different levels) is
unresolvable. -/
theorem resolveSegment_not_single (table : List StructuralAlias)
    (lvl : Nat) (seg : String) (hint : ¬ isIntegerSeg seg = true)
    (h : ∀ z, table.filter (fun a => a.aliasName == seg) ≠ [z]) :
    resolveSegment table lvl seg = none := by
  rw [resolveSegment, if_neg hint]
  cases hf : table.filter (fun a => a.aliasName == seg) with
  | nil => rfl
  | cons x t =>
    cases t with
    | nil => exact absurd hf (h x)
    | cons y t' => rfl

/-- A non-integer segment none of whose table entries sit at the expected
level is unresolvable. -/
theorem resolveSegment_wrong_level (table : List StructuralAlias)
    (lvl : Nat) (seg : String) (hint : ¬ isIntegerSeg seg = true)
    (h : ∀ a ∈ table, a.aliasName = seg → a.level ≠ lvl) :
    resolveSegment table lvl seg = none := by
  rw [resolveSegment, if_neg hint]
  have hmem : ∀ a ∈ table.filter (fun x => x.aliasName == seg),
      a.level ≠ lvl := by
    intro a ha
    obtain ⟨hat, hae⟩ := List.mem_filter.mp ha
    exact h a hat (eq_of_beq hae)
  cases hf : table.filter (fun x => x.aliasName == seg) with
  | nil => rfl
  | cons x t =>
    cases t with
    | nil =>
      have hx : x ∈ table.filter (fun x => x.aliasName == seg) := by
        rw [hf]; exact List.mem_cons_self _ _
      show (if (x.level == lvl) = true then some x.canonicalValue
        else none) = none
      rw [if_neg]
      simpa using hmem x hx
    | cons y t' => rfl

/-- C3: structural-alias resolution respects levels — all-integer paths
resolve verbatim; a successful resolution reproduces every integer segment
in place; a non-integer segment with no table entry at its exact expected
level (position `i`, level `i + 1`) makes the whole reference unresolvable;
and a non-integer segment whose alias is ambiguous across two levels is a
hard failure as well. -/
theorem structuralAlias_resolution_level_respecting
    (table : List StructuralAlias) (segments : List String) :
    ((∀ s ∈ segments, isIntegerSeg s) →
      resolvePath table segments = some segments) ∧
    (∀ out, resolvePath table segments = some out →
      out.length = segments.length ∧
      ∀ i s, segments.get? i = some s → isIntegerSeg s →
        out.get? i = some s) ∧
    (∀ i s, segments.get? i = some s → ¬ isIntegerSeg s →
      (∀ a ∈ table, a.aliasName = s → a.level ≠ i + 1) →
      resolvePath table segments = none) ∧
    (∀ i s a b, segments.get? i = some s → ¬ isIntegerSeg s →
      a ∈ table → b ∈ table → a.aliasName = s → b.aliasName = s →
      a.level ≠ b.level → resolvePath table segments = none) := by
  refine ⟨resolveSegsFrom_all_int table segments 1,
    fun out h => resolveSegsFrom_some table segments out 1 h, ?_, ?_⟩
  · intro i s hget hint hlvl
    refine resolveSegsFrom_none table segments 1 i s hget ?_
    refine resolveSegment_wrong_level table (1 + i) s hint ?_
    intro a hat hae
    have := hlvl a hat hae
    omega
  · intro i s a b hget hint ha hb has hbs hab
    refine resolveSegsFrom_none table segments 1 i s hget ?_
    refine resolveSegment_not_single table (1 + i) s hint ?_
    intro z hz
    have hamem : a ∈ table.filter (fun x => x.aliasName == s) :=
      List.mem_filter.mpr ⟨ha, by simp [has]⟩
    have hbmem : b ∈ table.filter (fun x => x.aliasName == s) :=
      List.mem_filter.mpr ⟨hb, by simp [hbs]⟩
    rw [hz] at hamem hbmem
    have hax := List.mem_singleton.mp hamem
    have hbx := List.mem_singleton.mp hbmem
    exact hab ((hax.trans hbx.symm) ▸ rfl)

end GranthaExplorer.Resolver

namespace GranthaExplorer.Witnesses

open GranthaExplorer.Resolver

/-- C3 witness: against `wAliasTable`, the path `["वल्ली", "2"]` has its
first (non-integer) segment ambiguous across levels 1 and 2, so the whole
reference is unresolvable. -/
theorem structuralAlias_resolution_level_respecting_witness :
    (("वल्ली" : String) ∈ (["वल्ली", "2"] : List String)) ∧
    resolvePath wAliasTable ["वल्ली", "2"] = none :=
  ⟨by decide,
    (structuralAlias_resolution_level_respecting wAliasTable
        ["वल्ली", "2"]).2.2.2 0 "वल्ली"
      { aliasName := "वल्ली", level := 1, canonicalValue := "2" }
      { aliasName := "वल्ली", level := 2, canonicalValue := "1" }
      (by decide) (by decide) (by decide) (by decide) rfl rfl (by decide)⟩

end GranthaExplorer.Witnesses

namespace GranthaExplorer

/-! ## Canonical numerals and `parseInt` -/

theorem digitChar_toNat (m : Nat) (h : m < 10) :
    (Char.ofNat (48 + m)).toNat = 48 + m := by
  interval_cases m <;> decide

theorem isDigitChar_digitChar (m : Nat) (h : m < 10) :
    isDigitChar (Char.ofNat (48 + m)) = true := by
  interval_cases m <;> decide

theorem natStrAux_ne_nil (fuel n : Nat) : natStrAux (fuel + 1) n ≠ [] := by
  rw [natStrAux]
  by_cases h : n < 10 <;> simp [h]

theorem natStrAux_all_digits (fuel : Nat) :
    ∀ n, (natStrAux fuel n).all isDigitChar = true := by
  induction fuel with
  | zero => intro n; rfl
  | succ fuel ih =>
    intro n
    rw [natStrAux]
    by_cases h : n < 10
    · simp [h, isDigitChar_digitChar n h]
    · have hm : n % 10 < 10 := Nat.mod_lt _ (by omega)
      simp [h, List.all_append, ih (n / 10), isDigitChar_digitChar _ hm]

theorem digitsVal_append_digit (a : List Char) (c : Char) :
    digitsVal (a ++ [c]) = 10 * digitsVal a + (c.toNat - 48) := by
  rw [digitsVal, digitsVal, List.foldl_append]
  simp [Nat.mul_comm]

theorem digitsVal_natStrAux (fuel : Nat) :
    ∀ n, n < fuel → digitsVal (natStrAux fuel n) = n := by
  induction fuel with
  | zero => intro n h; omega
  | succ fuel ih =>
    intro n h
    rw [natStrAux]
    by_cases h10 : n < 10
    · simp only [if_pos h10]
      show digitsVal ([] ++ [Char.ofNat (48 + n)]) = n
      rw [digitsVal_append_digit, digitChar_toNat n h10]
      simp [digitsVal]
    · simp only [if_neg h10]
      have hdiv : n / 10 < fuel := by
        have h1 : n / 10 < n := Nat.div_lt_self (by omega) (by omega)
        omega
      have hm : n % 10 < 10 := Nat.mod_lt _ (by omega)
      rw [digitsVal_append_digit, ih (n / 10) hdiv, digitChar_toNat _ hm]
      omega

theorem digitsVal_natStr (n : Nat) : digitsVal (natStr n).data = n :=
  digitsVal_natStrAux (n + 1) n (Nat.lt_succ_self n)

theorem natStr_ne_empty (n : Nat) : (natStr n).data ≠ [] :=
  natStrAux_ne_nil n n

theorem natStr_all_digits (n : Nat) :
    (natStr n).data.all isDigitChar = true :=
  natStrAux_all_digits (n + 1) n

theorem isCanonicalNat_natStr (n : Nat) : isCanonicalNat (natStr n) = true := by
  rw [isCanonicalNat]
  simp [digitsVal_natStr, natStr_all_digits, natStr_ne_empty]

/-- A canonical numeral is the image of its own value. -/
theorem isCanonicalNat_eq (s : String) (h : isCanonicalNat s = true) :
    s = natStr (digitsVal s.data) := by
  rw [isCanonicalNat] at h
  simp only [Bool.and_eq_true, decide_eq_true_eq] at h
  exact h.1.symm

theorem isDigitChar_ne_space (c : Char) (h : isDigitChar c = true) :
    c ≠ ' ' := by
  intro hc
  rw [hc] at h
  exact absurd h (by decide)

theorem isDigitChar_ne (c : Char) (h : isDigitChar c = true) :
    c ≠ '-' ∧ c ≠ '+' ∧ c ≠ ' ' := by
  refine ⟨?_, ?_, isDigitChar_ne_space c h⟩ <;>
    · intro hc
      rw [hc] at h
      exact absurd h (by decide)

theorem takeWhile_all {p : Char → Bool} (l : List Char)
    (h : l.all p = true) : l.takeWhile p = l := by
  induction l with
  | nil => rfl
  | cons c rest ih =>
    simp only [List.all_cons, Bool.and_eq_true] at h
    rw [List.takeWhile_cons, if_pos h.1, ih h.2]

theorem dropWhile_of_head_not {p : Char → Bool} (l : List Char)
    (h : ∀ c ∈ l.head?, p c = false) : l.dropWhile p = l := by
  cases l with
  | nil => rfl
  | cons c rest =>
    rw [List.dropWhile_cons, if_neg]
    simp [h c rfl]

/-- `parseInt` of a canonical numeral is its value. -/
theorem jsParseInt_natStr (n : Nat) : jsParseInt (natStr n) = some (n : Int) := by
  have hall := natStr_all_digits n
  cases hd : (natStr n).data with
  | nil => exact absurd hd (natStr_ne_empty n)
  | cons c0 rest =>
    have h0 : isDigitChar c0 = true := by
      rw [hd] at hall
      simp only [List.all_cons, Bool.and_eq_true] at hall
      exact hall.1
    obtain ⟨hm, hp, hs⟩ := isDigitChar_ne c0 h0
    have hdrop : (natStr n).data.dropWhile (· = ' ') = c0 :: rest := by
      rw [hd, List.dropWhile_cons, if_neg (by simp [hs])]
    have hrun : digitRun (c0 :: rest) = some n := by
      rw [digitRun]
      have htw : (c0 :: rest).takeWhile isDigitChar = c0 :: rest := by
        refine takeWhile_all _ ?_
        rw [← hd]
        exact natStr_all_digits n
      simp only [htw]
      rw [if_neg (by simp), ← hd, digitsVal_natStr n]
    simp only [jsParseInt, hdrop, if_neg hm, if_neg hp, hrun]
    rfl

/-- The numeric sort key of a group key built from a canonical numeral
segment recovers the segment's value: the display name contributes only
earlier space-separated tokens. -/
theorem groupSortNum_key (dev : String) (n : Nat) :
    Data.groupSortNum (dev ++ " " ++ natStr n) = (n : Int) := by
  have hdata : (dev ++ " " ++ natStr n).data
      = dev.data ++ ' ' :: (natStr n).data := by
    simp [String.data_append]
  have hsplit : charSplit ' ' (dev ++ " " ++ natStr n).data
      = charSplit ' ' dev.data ++ [(natStr n).data] := by
    rw [hdata, charSplit_append_sep]
    congr 1
    refine charSplit_of_not_mem _ _ ?_
    intro hsp
    have := natStr_all_digits n
    rw [List.all_eq_true] at this
    exact absurd rfl (isDigitChar_ne_space ' ' (this ' ' hsp))
  rw [Data.groupSortNum, jsSplit, hsplit]
  rw [List.map_append, List.getLast?_append]
  have hne : (⟨(natStr n).data⟩ : String) = natStr n := rfl
  simp only [List.map_cons, List.map_nil, List.getLast?_singleton, hne,
    Option.or, Option.getD_some]
  rw [if_neg (by simpa [String.ext_iff] using natStr_ne_empty n)]
  rw [jsParseInt_natStr]
  rfl

end GranthaExplorer

namespace GranthaExplorer.Data

/-! ## Sorting, segment and chain lemmas for the grouping theorems -/

theorem insertAsc_perm (key : String → Int) (x : String) :
    ∀ l : List String, List.Perm (insertAsc key x l) (x :: l) := by
  intro l
  induction l with
  | nil => rfl
  | cons y ys ih =>
    rw [insertAsc]
    by_cases h : key x < key y
    · rw [if_pos h]
    · rw [if_neg h]
      exact List.Perm.trans (List.Perm.cons y ih) (List.Perm.swap x y ys)

theorem sortAsc_perm (key : String → Int) :
    ∀ l : List String, List.Perm (sortAsc key l) l := by
  intro l
  induction l with
  | nil => rfl
  | cons x xs ih =>
    rw [sortAsc]
    exact (insertAsc_perm key x (sortAsc key xs)).trans (List.Perm.cons x ih)

theorem mem_sortAsc (key : String → Int) (l : List String) (v : String) :
    v ∈ sortAsc key l ↔ v ∈ l :=
  (sortAsc_perm key l).mem_iff

theorem insertAsc_pairwise (key : String → Int) (x : String)
    (l : List String) (h : l.Pairwise fun a b => key a ≤ key b) :
    (insertAsc key x l).Pairwise fun a b => key a ≤ key b := by
  induction l with
  | nil => simp [insertAsc]
  | cons y ys ih =>
    rw [insertAsc]
    rw [List.pairwise_cons] at h
    by_cases hxy : key x < key y
    · rw [if_pos hxy]
      rw [List.pairwise_cons]
      refine ⟨?_, List.pairwise_cons.mpr h⟩
      intro z hz
      rcases List.mem_cons.mp hz with rfl | hz'
      · exact le_of_lt hxy
      · exact le_trans (le_of_lt hxy) (h.1 z hz')
    · rw [if_neg hxy]
      rw [List.pairwise_cons]
      refine ⟨?_, ih h.2⟩
      intro z hz
      rcases List.mem_cons.mp ((insertAsc_perm key x ys).mem_iff.mp hz)
        with rfl | h1
      · omega
      · exact h.1 z h1

theorem sortAsc_pairwise (key : String → Int) :
    ∀ l : List String, (sortAsc key l).Pairwise fun a b => key a ≤ key b := by
  intro l
  induction l with
  | nil => simp [sortAsc]
  | cons x xs ih => exact insertAsc_pairwise key x (sortAsc key xs) ih

theorem mem_segVals (ps : List Passage) (lvl : Nat) (v : String) :
    v ∈ segVals ps lvl ↔ ∃ p ∈ ps, (seglist p).get? lvl = some v := by
  rw [segVals, mem_firstDedup, List.mem_filterMap]

theorem nodup_segVals (ps : List Passage) (lvl : Nat) :
    (segVals ps lvl).Nodup :=
  nodup_firstDedup _

/-- Every value grouped at level `lvl` is a ref segment of a listed
passage. -/
theorem segVals_canonical (ps : List Passage) (lvl : Nat)
    (H : ∀ p ∈ ps, ∀ s ∈ seglist p, isCanonicalNat s = true) :
    ∀ v ∈ segVals ps lvl, isCanonicalNat v = true := by
  intro v hv
  obtain ⟨p, hp, hg⟩ := (mem_segVals ps lvl v).mp hv
  exact H p hp v (List.get?_mem hg)

theorem matchSeg_single (p : Passage) (lvl : Nat) (v : String) :
    matchSeg p lvl [v] = ((seglist p).get? lvl == some v) := by
  rw [matchSeg]
  cases hd : (seglist p).drop lvl with
  | nil =>
    have hg : (seglist p)[lvl]? = none := by
      rw [← List.head?_drop, hd]
      rfl
    simp [hd, hg, List.get?_eq_getElem?]
  | cons x xs =>
    have hg : (seglist p).get? lvl = some x := by
      rw [List.get?_eq_getElem?, ← List.head?_drop, hd]
      rfl
    rw [hg]
    simp only [List.length_cons, List.length_nil, Nat.zero_add,
      List.take_succ_cons, List.take_zero]
    show ([x] == [v]) = (some x == some v)
    by_cases hxv : x = v <;> simp [hxv]

theorem matchSeg_cons (p : Passage) (lvl : Nat) (v : String)
    (path : List String) :
    matchSeg p lvl (v :: path)
      = (((seglist p).get? lvl == some v) && matchSeg p (lvl + 1) path) := by
  rw [matchSeg, matchSeg]
  cases hd : (seglist p).drop lvl with
  | nil =>
    have hg : (seglist p)[lvl]? = none := by
      rw [← List.head?_drop, hd]
      rfl
    simp [hd, hg, List.get?_eq_getElem?]
  | cons x xs =>
    have hg : (seglist p).get? lvl = some x := by
      rw [List.get?_eq_getElem?, ← List.head?_drop, hd]
      rfl
    have hxs : (seglist p).drop (lvl + 1) = xs := by
      rw [← List.tail_drop, hd]
      rfl
    rw [hg, hxs]
    simp only [List.length_cons, List.take_succ_cons]
    show ((x :: xs.take path.length) == v :: path)
      = ((some x == some v) && (xs.take path.length == path))
    by_cases hxv : x = v <;> simp [hxv]

/-- The forest of `buildChain` never recurses on an empty chain. -/
theorem chainNames_ne_nil (sl : StructureLevel) : chainNames sl ≠ [] := by
  cases sl with
  | mk k d r children =>
    cases children with
    | nil => rw [chainNames]; simp
    | cons c cs => rw [chainNames]; simp

/-- `buildNestedGroups` coincides with its chain form: only the first-child
chain of the structure tree matters. -/
theorem buildNestedGroups_eq_chain :
    ∀ (sl : StructureLevel) (ps : List Passage) (lvl : Nat),
      buildNestedGroups ps sl lvl = buildChain ps (chainNames sl) lvl
  | .mk k d r [], ps, lvl => by
    simp only [buildNestedGroups, chainNames, buildChain]
  | .mk k d r (c :: cs), ps, lvl => by
    have hfun : ∀ psf : List Passage, buildNestedGroups psf c (lvl + 1)
        = buildChain psf (chainNames c) (lvl + 1) := fun psf =>
      buildNestedGroups_eq_chain c psf (lvl + 1)
    cases hc : chainNames c with
    | nil => exact absurd hc (chainNames_ne_nil c)
    | cons x xs =>
      simp only [buildNestedGroups, chainNames, hc, buildChain]
      simp only [hfun, hc]

theorem mem_flatLeaves (gs : List PassageGroup)
    (e : List String × List Passage) :
    e ∈ flatLeaves gs ↔ ∃ g ∈ gs, e ∈ leafEntries g := by
  induction gs with
  | nil => simp [flatLeaves]
  | cons g rest ih =>
    rw [flatLeaves, List.mem_append, ih]
    constructor
    · rintro (h | ⟨g', hg', he⟩)
      · exact ⟨g, List.mem_cons_self _ _, h⟩
      · exact ⟨g', List.mem_cons_of_mem _ hg', he⟩
    · rintro ⟨g', hg', he⟩
      rcases List.mem_cons.mp hg' with rfl | hg''
      · exact Or.inl he
      · exact Or.inr ⟨g', hg'', he⟩

/-- The recovered value of a key built from a canonical numeral. -/
theorem keyTok_eq (dev : String) (n : Nat) :
    (jsSplit ' ' (dev ++ " " ++ natStr n)).getLast?.getD "" = natStr n := by
  have hdata : (dev ++ " " ++ natStr n).data
      = dev.data ++ ' ' :: (natStr n).data := by
    simp [String.data_append]
  have hsplit : charSplit ' ' (dev ++ " " ++ natStr n).data
      = charSplit ' ' dev.data ++ [(natStr n).data] := by
    rw [hdata, charSplit_append_sep]
    congr 1
    refine charSplit_of_not_mem _ _ ?_
    intro hsp
    have := natStr_all_digits n
    rw [List.all_eq_true] at this
    exact absurd rfl (isDigitChar_ne_space ' ' (this ' ' hsp))
  rw [jsSplit, hsplit, List.map_append, List.getLast?_append]
  simp [Option.or]

end GranthaExplorer.Data

namespace GranthaExplorer.Data

/-! ## The chain grouping theorems (C4, C7) -/

theorem sortedSiblings_of_pairwise (gs : List PassageGroup)
    (hpw : gs.Pairwise fun g g' =>
      groupSortNum g.level < groupSortNum g'.level)
    (hsub : ∀ g ∈ gs, match g with
      | .leaf _ _ => True
      | .node _ children => SortedSiblings children) :
    SortedSiblings gs := by
  induction gs with
  | nil =>
    rw [SortedSiblings.eq_def]
    trivial
  | cons g rest ih =>
    rw [List.pairwise_cons] at hpw
    rw [SortedSiblings.eq_def]
    exact ⟨hpw.1, hsub g (List.mem_cons_self _ _),
      ih hpw.2 fun g' hg' => hsub g' (List.mem_cons_of_mem _ hg')⟩

/-- The sorted group values are strictly ascending in their numeric keys
when the segments are canonical numerals (distinct numerals, distinct
values). -/
theorem sortAsc_vals_strict (dev : String) (ps : List Passage) (lvl : Nat)
    (H : ∀ p ∈ ps, ∀ s ∈ seglist p, isCanonicalNat s = true) :
    (sortAsc (fun v => groupSortNum (dev ++ " " ++ v))
      (segVals ps lvl)).Pairwise
      fun a b => groupSortNum (dev ++ " " ++ a)
        < groupSortNum (dev ++ " " ++ b) := by
  have hle := sortAsc_pairwise (fun v => groupSortNum (dev ++ " " ++ v))
    (segVals ps lvl)
  have hnd : (sortAsc (fun v => groupSortNum (dev ++ " " ++ v))
      (segVals ps lvl)).Nodup :=
    (sortAsc_perm _ (segVals ps lvl)).nodup_iff.mpr (nodup_segVals ps lvl)
  have hcan : ∀ v ∈ sortAsc (fun v => groupSortNum (dev ++ " " ++ v))
      (segVals ps lvl), isCanonicalNat v = true :=
    fun v hv => segVals_canonical ps lvl H v ((mem_sortAsc _ _ _).mp hv)
  have hval : ∀ c ∈ sortAsc (fun v => groupSortNum (dev ++ " " ++ v))
      (segVals ps lvl),
      groupSortNum (dev ++ " " ++ c) = (digitsVal c.data : Int) := by
    intro c hc
    conv_lhs => rw [isCanonicalNat_eq c (hcan c hc)]
    rw [groupSortNum_key]
  refine List.Pairwise.imp_of_mem ?_ (hle.and hnd)
  intro a b ha hb hab
  obtain ⟨hab1, hab2⟩ := hab
  rcases lt_or_eq_of_le hab1 with h | h
  · exact h
  · exfalso
    apply hab2
    rw [hval a ha, hval b hb] at h
    have hdv : digitsVal a.data = digitsVal b.data := by exact_mod_cast h
    rw [isCanonicalNat_eq a (hcan a ha), isCanonicalNat_eq b (hcan b hb), hdv]


/-- Leaf-group exactness along a chain: every leaf entry's path has the
chain's length and its passages are exactly the prefix-matching ones. -/
theorem buildChain_leaves :
    ∀ (chain : List String) (ps : List Passage) (lvl : Nat),
      (∀ p ∈ ps, ∀ s ∈ seglist p, isCanonicalNat s = true) →
      ∀ e ∈ flatLeaves (buildChain ps chain lvl),
        e.1.length = chain.length ∧
        e.2 = ps.filter fun p => matchSeg p lvl e.1
  | [], ps, lvl, H, e, he => by
    simp [buildChain, flatLeaves] at he
  | [dev], ps, lvl, H, e, he => by
    rw [buildChain] at he
    obtain ⟨g, hg, hge⟩ := (mem_flatLeaves _ e).mp he
    obtain ⟨v, hv, rfl⟩ := List.mem_map.mp hg
    have hvc : isCanonicalNat v = true :=
      segVals_canonical ps lvl H v ((mem_sortAsc _ _ _).mp hv)
    have hveq : v = natStr (digitsVal v.data) := isCanonicalNat_eq v hvc
    rw [leafEntries] at hge
    have htok : (jsSplit ' ' (dev ++ " " ++ v)).getLast?.getD "" = v := by
      conv_lhs => rw [hveq]
      rw [keyTok_eq, ← hveq]
    rw [htok] at hge
    rcases List.mem_singleton.mp hge with rfl
    refine ⟨rfl, ?_⟩
    refine (List.filter_congr ?_).symm
    intro p hp
    rw [matchSeg_single]
  | dev :: d2 :: more, ps, lvl, H, e, he => by
    rw [buildChain] at he
    obtain ⟨g, hg, hge⟩ := (mem_flatLeaves _ e).mp he
    obtain ⟨v, hv, rfl⟩ := List.mem_map.mp hg
    have hvc : isCanonicalNat v = true :=
      segVals_canonical ps lvl H v ((mem_sortAsc _ _ _).mp hv)
    have hveq : v = natStr (digitsVal v.data) := isCanonicalNat_eq v hvc
    rw [leafEntries] at hge
    have htok : (jsSplit ' ' (dev ++ " " ++ v)).getLast?.getD "" = v := by
      conv_lhs => rw [hveq]
      rw [keyTok_eq, ← hveq]
    rw [htok] at hge
    obtain ⟨e', he', rfl⟩ := List.mem_map.mp hge
    have Hf : ∀ p ∈ ps.filter (fun p => (seglist p).get? lvl == some v),
        ∀ s ∈ seglist p, isCanonicalNat s = true := by
      intro p hp
      exact H p (List.mem_filter.mp hp).1
    obtain ⟨hlen, hfil⟩ := buildChain_leaves (d2 :: more)
      (ps.filter fun p => (seglist p).get? lvl == some v) (lvl + 1) Hf e' he'
    constructor
    · simpa using hlen
    · show e'.2 = _
      rw [hfil, List.filter_filter]
      refine List.filter_congr ?_
      intro p hp
      rw [matchSeg_cons, Bool.and_comm]
  termination_by chain => chain.length

/-- Completeness along a chain: every passage with enough ref segments lands
in the leaf group addressed by its segment prefix. -/
theorem buildChain_complete :
    ∀ (chain : List String) (ps : List Passage) (lvl : Nat),
      chain ≠ [] →
      (∀ p ∈ ps, ∀ s ∈ seglist p, isCanonicalNat s = true) →
      ∀ p ∈ ps, chain.length + lvl ≤ (seglist p).length →
        ∃ e ∈ flatLeaves (buildChain ps chain lvl),
          e.1 = ((seglist p).drop lvl).take chain.length ∧ p ∈ e.2
  | [], _, _, hne, _, _, _, _ => absurd rfl hne
  | [dev], ps, lvl, _, H, p, hp, hlen => by
    have hlt : lvl < (seglist p).length := by
      simp only [List.length_singleton] at hlen
      omega
    have hgv : (seglist p).get? lvl = some ((seglist p).get ⟨lvl, hlt⟩) := by
      rw [List.get?_eq_getElem?, List.getElem?_eq_getElem hlt,
        List.get_eq_getElem]
    set v := (seglist p).get ⟨lvl, hlt⟩ with hvdef
    have hvs : v ∈ sortAsc (fun v => groupSortNum (dev ++ " " ++ v))
        (segVals ps lvl) :=
      (mem_sortAsc _ _ _).mpr ((mem_segVals ps lvl v).mpr ⟨p, hp, hgv⟩)
    have hvc : isCanonicalNat v = true := H p hp v (List.get?_mem hgv)
    have hveq : v = natStr (digitsVal v.data) := isCanonicalNat_eq v hvc
    have htok : (jsSplit ' ' (dev ++ " " ++ v)).getLast?.getD "" = v := by
      conv_lhs => rw [hveq]
      rw [keyTok_eq, ← hveq]
    refine ⟨([v], ps.filter fun q => (seglist q).get? lvl == some v), ?_, ?_, ?_⟩
    · rw [buildChain]
      refine (mem_flatLeaves _ _).mpr
        ⟨.leaf (dev ++ " " ++ v) (ps.filter fun q =>
            (seglist q).get? lvl == some v), List.mem_map_of_mem _ hvs, ?_⟩
      rw [leafEntries, htok]
      exact List.mem_singleton_self _
    · show [v] = ((seglist p).drop lvl).take 1
      cases hd : (seglist p).drop lvl with
      | nil =>
        have hh := List.head?_drop (seglist p) lvl
        rw [hd] at hh
        rw [List.get?_eq_getElem?, ← hh] at hgv
        simp at hgv
      | cons x xs =>
        have hh := List.head?_drop (seglist p) lvl
        rw [hd] at hh
        rw [List.get?_eq_getElem?, ← hh] at hgv
        simp only [List.head?, Option.some.injEq] at hgv
        simp [← hgv]
    · exact List.mem_filter.mpr ⟨hp, by rw [hgv]; simp⟩
  | dev :: d2 :: more, ps, lvl, _, H, p, hp, hlen => by
    have hlt : lvl < (seglist p).length := by
      simp only [List.length_cons] at hlen
      omega
    have hgv : (seglist p).get? lvl = some ((seglist p).get ⟨lvl, hlt⟩) := by
      rw [List.get?_eq_getElem?, List.getElem?_eq_getElem hlt,
        List.get_eq_getElem]
    set v := (seglist p).get ⟨lvl, hlt⟩ with hvdef
    have hvs : v ∈ sortAsc (fun v => groupSortNum (dev ++ " " ++ v))
        (segVals ps lvl) :=
      (mem_sortAsc _ _ _).mpr ((mem_segVals ps lvl v).mpr ⟨p, hp, hgv⟩)
    have hvc : isCanonicalNat v = true := H p hp v (List.get?_mem hgv)
    have hveq : v = natStr (digitsVal v.data) := isCanonicalNat_eq v hvc
    have htok : (jsSplit ' ' (dev ++ " " ++ v)).getLast?.getD "" = v := by
      conv_lhs => rw [hveq]
      rw [keyTok_eq, ← hveq]
    have hpf : p ∈ ps.filter fun q => (seglist q).get? lvl == some v :=
      List.mem_filter.mpr ⟨hp, by rw [hgv]; simp⟩
    have Hf : ∀ q ∈ ps.filter (fun q => (seglist q).get? lvl == some v),
        ∀ s ∈ seglist q, isCanonicalNat s = true := by
      intro q hq
      exact H q (List.mem_filter.mp hq).1
    obtain ⟨e', he', hpath, hpe⟩ := buildChain_complete (d2 :: more)
      (ps.filter fun q => (seglist q).get? lvl == some v) (lvl + 1)
      (List.cons_ne_nil _ _) Hf p hpf
      (by simp only [List.length_cons] at hlen ⊢; omega)
    refine ⟨(v :: e'.1, e'.2), ?_, ?_, hpe⟩
    · rw [buildChain]
      refine (mem_flatLeaves _ _).mpr
        ⟨.node (dev ++ " " ++ v) (buildChain
            (ps.filter fun q => (seglist q).get? lvl == some v)
            (d2 :: more) (lvl + 1)), List.mem_map_of_mem _ hvs, ?_⟩
      rw [leafEntries, htok]
      exact List.mem_map_of_mem _ he'
    · show v :: e'.1 = ((seglist p).drop lvl).take (d2 :: more).length.succ
      cases hd : (seglist p).drop lvl with
      | nil =>
        have hh := List.head?_drop (seglist p) lvl
        rw [hd] at hh
        rw [List.get?_eq_getElem?, ← hh] at hgv
        simp at hgv
      | cons x xs =>
        have hh := List.head?_drop (seglist p) lvl
        rw [hd] at hh
        rw [List.get?_eq_getElem?, ← hh] at hgv
        simp only [List.head?, Option.some.injEq] at hgv
        have hxs : xs = (seglist p).drop (lvl + 1) := by
          rw [← List.tail_drop, hd]
          rfl
        rw [List.take_succ_cons, ← hgv, hpath, hxs]
  termination_by chain => chain.length

/-- Sibling groups along a chain are strictly ascending in their numeric
keys, recursively. -/
theorem buildChain_sorted :
    ∀ (chain : List String) (ps : List Passage) (lvl : Nat),
      (∀ p ∈ ps, ∀ s ∈ seglist p, isCanonicalNat s = true) →
      SortedSiblings (buildChain ps chain lvl)
  | [], ps, lvl, H => by
    rw [buildChain, SortedSiblings.eq_def]
    trivial
  | [dev], ps, lvl, H => by
    rw [buildChain]
    refine sortedSiblings_of_pairwise _ ?_ ?_
    · rw [List.pairwise_map]
      exact sortAsc_vals_strict dev ps lvl H
    · intro g hg
      obtain ⟨v, hv, rfl⟩ := List.mem_map.mp hg
      trivial
  | dev :: d2 :: more, ps, lvl, H => by
    rw [buildChain]
    refine sortedSiblings_of_pairwise _ ?_ ?_
    · rw [List.pairwise_map]
      exact sortAsc_vals_strict dev ps lvl H
    · intro g hg
      obtain ⟨v, hv, rfl⟩ := List.mem_map.mp hg
      show SortedSiblings (buildChain _ (d2 :: more) (lvl + 1))
      refine buildChain_sorted (d2 :: more) _ (lvl + 1) ?_
      intro q hq
      exact H q (List.mem_filter.mp hq).1
  termination_by chain => chain.length

end GranthaExplorer.Data

namespace GranthaExplorer.Data

/-! ## C4 and C7 claim theorems -/

/-- C4: for a structure tree of any depth and passages whose ref segments
are canonical decimal numerals, the hierarchical grouping nests one level
per structure level: each leaf group's path has length equal to the tree's
first-child chain depth and its passages are exactly those whose ref-segment
prefix matches the path; every passage with enough segments appears in the
leaf addressed by its prefix; and sibling groups are strictly ascending in
the integer value of their ref segment ("10" after "9", not between "1" and
"2"). -/
theorem groupByHierarchy_depth_agnostic (sl : StructureLevel)
    (ps : List Passage)
    (H : ∀ p ∈ ps, ∀ s ∈ seglist p, isCanonicalNat s = true) :
    (∀ e ∈ flatLeaves (buildNestedGroups ps sl 0),
      e.1.length = chainDepth sl ∧
      e.2 = ps.filter fun p => matchSeg p 0 e.1) ∧
    (∀ p ∈ ps, chainDepth sl ≤ (seglist p).length →
      ∃ e ∈ flatLeaves (buildNestedGroups ps sl 0),
        e.1 = (seglist p).take (chainDepth sl) ∧ p ∈ e.2) ∧
    SortedSiblings (buildNestedGroups ps sl 0) := by
  rw [buildNestedGroups_eq_chain]
  refine ⟨fun e he => buildChain_leaves (chainNames sl) ps 0 H e he,
    ?_, buildChain_sorted (chainNames sl) ps 0 H⟩
  intro p hp hlen
  have h := buildChain_complete (chainNames sl) ps 0 (chainNames_ne_nil sl)
    H p hp (by simpa [chainDepth] using hlen)
  simpa [chainDepth, List.drop_zero] using h

/-- Short refs vanish from every leaf group, at every recursion level. -/
theorem buildChain_drops_short :
    ∀ (chain : List String) (ps : List Passage) (lvl : Nat) (p : Passage),
      (seglist p).length < chain.length + lvl →
      ∀ e ∈ flatLeaves (buildChain ps chain lvl), p ∉ e.2
  | [], ps, lvl, p, hshort, e, he => by
    simp [buildChain, flatLeaves] at he
  | [dev], ps, lvl, p, hshort, e, he => by
    rw [buildChain] at he
    obtain ⟨g, hg, hge⟩ := (mem_flatLeaves _ e).mp he
    obtain ⟨v, hv, rfl⟩ := List.mem_map.mp hg
    rw [leafEntries] at hge
    rcases List.mem_singleton.mp hge with rfl
    intro hpe
    have hbeq := (List.mem_filter.mp hpe).2
    have hgv : (seglist p).get? lvl = some v := by
      simpa using hbeq
    have hlt := (List.get?_eq_some.mp hgv).1
    simp only [List.length_singleton] at hshort
    omega
  | dev :: d2 :: more, ps, lvl, p, hshort, e, he => by
    rw [buildChain] at he
    obtain ⟨g, hg, hge⟩ := (mem_flatLeaves _ e).mp he
    obtain ⟨v, hv, rfl⟩ := List.mem_map.mp hg
    rw [leafEntries] at hge
    obtain ⟨e', he', rfl⟩ := List.mem_map.mp hge
    show p ∉ e'.2
    refine buildChain_drops_short (d2 :: more) _ (lvl + 1) p ?_ e' he'
    simp only [List.length_cons] at hshort ⊢
    omega
  termination_by chain => chain.length

/-- The validator's chain walk agrees with the grouping recursion's chain:
`getStructureDepth [sl]` is the length of the first-child display-name
chain. -/
theorem structureChainLen_eq : ∀ (sl : StructureLevel),
    structureChainLen sl = (chainNames sl).length
  | .mk k d r [] => by rw [structureChainLen, chainNames, List.length_singleton]
  | .mk k d r (c :: cs) => by
    rw [structureChainLen, chainNames, structureChainLen_eq c,
      List.length_cons, Nat.add_comm]

theorem getStructureDepth_singleton (sl : StructureLevel) :
    getStructureDepth [sl] = chainDepth sl := by
  rw [getStructureDepth, chainDepth, structureChainLen_eq]

/-- The `main` branch of the validator reports nothing for a passage iff
the passage is not main, or its segment count equals the expected depth
and every segment passes the numeral regex. -/
theorem mainPassageErrors_eq_nil (fn : String) (d : Nat) (p : Passage) :
    mainPassageErrors fn d p = [] ↔
      (p.passage_type = PassageType.main →
        (seglist p).length = d ∧
        ∀ s ∈ seglist p, numericSegment s = true) := by
  rw [mainPassageErrors]
  by_cases hmain : p.passage_type = PassageType.main
  · rw [if_pos hmain, List.append_eq_nil]
    constructor
    · rintro ⟨h1, h2⟩ _
      refine ⟨?_, ?_⟩
      · by_contra hne
        rw [if_pos hne] at h1
        simp at h1
      · intro s hs
        have hf : (seglist p).filter (fun part => ! numericSegment part) = [] :=
          List.map_eq_nil_iff.mp h2
        have := List.filter_eq_nil_iff.mp hf s hs
        simpa using this
    · intro h
      obtain ⟨h1, h2⟩ := h hmain
      refine ⟨?_, ?_⟩
      · rw [if_neg (by simp [h1])]
      · rw [List.map_eq_nil_iff, List.filter_eq_nil_iff]
        intro s hs
        simp [h2 s hs]
  · rw [if_neg hmain]
    simp [hmain]

/-- With a nonempty `structure_levels` array `[sl]`, the validator's value:
validity flag and report list, expected depth instantiated to the chain
depth. -/
theorem validateStructureConsistency_eq (g : Grantha) (fn : String)
    (sl : StructureLevel) (hsl : g.structure_levels = [sl]) :
    validateStructureConsistency g fn
      = ((g.passages.flatMap (mainPassageErrors fn (chainDepth sl))
            ++ g.commentaries.flatMap fun c =>
              c.passages.flatMap fun cp =>
                if (jsSplit '.' cp.ref).length ≠ chainDepth sl then
                  [ValidationError.commentaryDepthMismatch fn cp.ref
                    (jsSplit '.' cp.ref).length (chainDepth sl)]
                else []).isEmpty,
          g.passages.flatMap (mainPassageErrors fn (chainDepth sl))
            ++ g.commentaries.flatMap fun c =>
              c.passages.flatMap fun cp =>
                if (jsSplit '.' cp.ref).length ≠ chainDepth sl then
                  [ValidationError.commentaryDepthMismatch fn cp.ref
                    (jsSplit '.' cp.ref).length (chainDepth sl)]
                else []) := by
  rw [validateStructureConsistency, hsl, if_neg (by simp)]
  simp only [getStructureDepth_singleton]

/-- C7 (amended): the staged validator `validateStructureConsistency`
(`scripts/sort-granthas-meta.ts`) checks, for every `main` passage, that
the ref's dot-segment count equals the structure-tree depth and that every
segment is a nonempty digit string: it reports nothing for a passage
exactly when the passage satisfies the invariant, every report a main
passage triggers appears in the returned report list, and the validity
flag is true exactly when no report was emitted; but the operation that
consumes passages, `getPassageHierarchy`/`buildNestedGroups`, silently
omits from every leaf group any passage whose ref has fewer segments than
the structure's chain depth — it reports nothing (its type has no error
channel), contrary to the original claim that a violation is never
silently dropped. -/
theorem mainRef_depth_validation_amended (g : Grantha) (fn : String)
    (sl : StructureLevel) (hsl : g.structure_levels = [sl]) :
    (∀ p : Passage, mainPassageErrors fn (chainDepth sl) p = [] ↔
      (p.passage_type = PassageType.main →
        (seglist p).length = chainDepth sl ∧
        ∀ s ∈ seglist p, numericSegment s = true)) ∧
    ((validateStructureConsistency g fn).1 = true ↔
      (validateStructureConsistency g fn).2 = []) ∧
    (∀ p ∈ g.passages, ∀ err ∈ mainPassageErrors fn (chainDepth sl) p,
      err ∈ (validateStructureConsistency g fn).2) ∧
    (∀ (ps : List Passage) (p : Passage),
      (seglist p).length < chainDepth sl →
      ∀ e ∈ flatLeaves (buildNestedGroups ps sl 0), p ∉ e.2) := by
  refine ⟨fun p => mainPassageErrors_eq_nil fn (chainDepth sl) p, ?_, ?_, ?_⟩
  · rw [validateStructureConsistency_eq g fn sl hsl]
    simp [List.isEmpty_iff]
  · intro p hp err herr
    rw [validateStructureConsistency_eq g fn sl hsl]
    show err ∈ _ ++ _
    exact List.mem_append_left _ (List.mem_flatMap.mpr ⟨p, hp, herr⟩)
  · intro ps p hshort e he hpe
    rw [buildNestedGroups_eq_chain] at he
    exact buildChain_drops_short (chainNames sl) ps 0 p
      (by simpa [chainDepth] using hshort) e he hpe

end GranthaExplorer.Data

namespace GranthaExplorer.Witnesses

/-- C4 witness: at the concrete depth-2 tree and the passages with refs
`1.1`, `10.2`, `9.1`, `2.4` (all canonical numerals), the grouping theorem
applies; its ordering part puts the "10" group after the "9" group. -/
theorem groupByHierarchy_depth_agnostic_witness :
    (∀ p ∈ wGroupPassages, ∀ s ∈ Data.seglist p, isCanonicalNat s = true) ∧
    Data.SortedSiblings (Data.buildNestedGroups wGroupPassages wTwoLevel 0) :=
  ⟨by decide,
    (Data.groupByHierarchy_depth_agnostic wTwoLevel wGroupPassages
      (by decide)).2.2⟩

/-- C7 counterexample: in `wShortGrantha` the only main passage has ref
`"1"`, one segment against a depth-2 structure tree; the staged validator
`validateStructureConsistency` reports the depth mismatch and fails, yet
`getPassageHierarchy` silently drops the passage — the hierarchy's leaf
level is empty with no reported error (the function's type has no error
channel), refuting "never silently … dropped by the operations that
consume passages". -/
theorem mainRefDepth_silent_drop_counterexample :
    wShortGrantha.passages = [wShortPassage] ∧
    (Data.seglist wShortPassage).length ≠ Data.chainDepth wTwoLevel ∧
    (Data.validateStructureConsistency wShortGrantha "isavasya.json").1
      = false ∧
    (Data.validateStructureConsistency wShortGrantha "isavasya.json").2
      = [Data.ValidationError.mainDepthMismatch "isavasya.json" "1" 1 2] ∧
    Data.flatLeaves (Data.getPassageHierarchy wShortGrantha).main = [] := by
  refine ⟨rfl, by decide, by decide, by decide, by decide⟩

/-- C7 witness for the amended claim at the same concrete input: the
validity flag reflects the report list, and the short-ref passage vanishes
from every leaf of the grouping. -/
theorem mainRef_depth_validation_amended_witness :
    wShortGrantha.structure_levels = [wTwoLevel] ∧
    (((Data.validateStructureConsistency wShortGrantha "isavasya.json").1
        = true ↔
      (Data.validateStructureConsistency wShortGrantha "isavasya.json").2
        = []) ∧
    ∀ e ∈ Data.flatLeaves
        (Data.buildNestedGroups [wShortPassage] wTwoLevel 0),
      wShortPassage ∉ e.2) :=
  ⟨rfl,
    (Data.mainRef_depth_validation_amended wShortGrantha "isavasya.json"
      wTwoLevel rfl).2.1,
    fun e he =>
      (Data.mainRef_depth_validation_amended wShortGrantha "isavasya.json"
        wTwoLevel rfl).2.2.2 [wShortPassage] wShortPassage (by decide) e he⟩

end GranthaExplorer.Witnesses

namespace GranthaExplorer.Converter

/-! ## C1 — round-trip machinery: state lemmas -/

theorem closeCur_cur (st : ParseState) : (closeCur st).cur = .closed := by
  cases h : st.cur with
  | closed => simp [closeCur, h]
  | pass k r lab rs e => cases k <;> simp [closeCur, h]
  | comm cid r rs e => simp [closeCur, h]

theorem closeCur_of_closed (st : ParseState) (h : st.cur = .closed) :
    closeCur st = st := by
  rw [closeCur, h]

theorem closeCur_idem (st : ParseState) :
    closeCur (closeCur st) = closeCur st :=
  closeCur_of_closed _ (closeCur_cur st)

theorem step_closeCur (st : ParseState) (l : MLine) (h : isHeader l) :
    step st l = step (closeCur st) l := by
  cases l with
  | meta did dt cm sh => simp [step, closeCur_idem]
  | pheader k r lab => simp [step, closeCur_idem]
  | cheader cid r => simp [step, closeCur_idem]
  | script n t => exact absurd h (by rw [isHeader]; exact not_false)
  | english t => exact absurd h (by rw [isHeader]; exact not_false)

/-- An open block may be closed early when the rest of the input starts with
a header (or is exhausted). -/
theorem run_closeCur (st : ParseState) (rest : List MLine)
    (h : headClosed rest) : run st rest = run (closeCur st) rest := by
  cases rest with
  | nil =>
    show closeCur st = closeCur (closeCur st)
    rw [closeCur_idem]
  | cons l rest' =>
    show closeCur (List.foldl step (step st l) rest')
      = closeCur (List.foldl step (step (closeCur st) l) rest')
    rw [step_closeCur st l h]

theorem foldl_scripts_pass (st : ParseState) (k : PKind) (r : String)
    (lab : Option String) (e0 : Option String) :
    ∀ (l : List (String × String)) (rs0 : List (String × String)),
      List.foldl step { st with cur := .pass k r lab rs0 e0 }
        (l.map fun sc => MLine.script sc.1 sc.2)
      = { st with cur := .pass k r lab (l.reverse ++ rs0) e0 } := by
  intro l
  induction l with
  | nil => intro rs0; rfl
  | cons sc rest ih =>
    intro rs0
    rw [List.map_cons, List.foldl_cons]
    show List.foldl step { st with cur := .pass k r lab ((sc.1, sc.2) :: rs0) e0 }
      (rest.map fun sc => MLine.script sc.1 sc.2) = _
    rw [ih ((sc.1, sc.2) :: rs0)]
    simp

theorem foldl_english_pass (st : ParseState) (k : PKind) (r : String)
    (lab : Option String) (rs : List (String × String)) (eng : Option String) :
    List.foldl step { st with cur := .pass k r lab rs none }
      (match eng with
       | some t => [MLine.english t]
       | none => [])
      = { st with cur := .pass k r lab rs eng } := by
  cases eng with
  | none => rfl
  | some t => rfl

theorem foldl_emitContent_pass (st : ParseState) (k : PKind) (r : String)
    (lab : Option String) (O : SerializeOptions)
    (perScript : List (String × String)) (eng : Option String) :
    List.foldl step { st with cur := .pass k r lab [] none }
      (emitContent O perScript eng)
      = { st with cur := (.pass k r lab
            ((perScript.filter fun sc => O.scripts.contains sc.1).reverse)
            eng) } := by
  simp only [emitContent]
  rw [List.foldl_append, foldl_scripts_pass]
  rw [List.append_nil]
  exact foldl_english_pass st k r lab _ eng

theorem foldl_scripts_comm (st : ParseState) (cid r : String)
    (e0 : Option String) :
    ∀ (l : List (String × String)) (rs0 : List (String × String)),
      List.foldl step { st with cur := .comm cid r rs0 e0 }
        (l.map fun sc => MLine.script sc.1 sc.2)
      = { st with cur := .comm cid r (l.reverse ++ rs0) e0 } := by
  intro l
  induction l with
  | nil => intro rs0; rfl
  | cons sc rest ih =>
    intro rs0
    rw [List.map_cons, List.foldl_cons]
    show List.foldl step { st with cur := .comm cid r ((sc.1, sc.2) :: rs0) e0 }
      (rest.map fun sc => MLine.script sc.1 sc.2) = _
    rw [ih ((sc.1, sc.2) :: rs0)]
    simp

theorem foldl_english_comm (st : ParseState) (cid r : String)
    (rs : List (String × String)) (eng : Option String) :
    List.foldl step { st with cur := .comm cid r rs none }
      (match eng with
       | some t => [MLine.english t]
       | none => [])
      = { st with cur := .comm cid r rs eng } := by
  cases eng with
  | none => rfl
  | some t => rfl

theorem foldl_emitContent_comm (st : ParseState) (cid r : String)
    (O : SerializeOptions) (perScript : List (String × String))
    (eng : Option String) :
    List.foldl step { st with cur := .comm cid r [] none }
      (emitContent O perScript eng)
      = { st with cur := (.comm cid r
            ((perScript.filter fun sc => O.scripts.contains sc.1).reverse)
            eng) } := by
  simp only [emitContent]
  rw [List.foldl_append, foldl_scripts_comm]
  rw [List.append_nil]
  exact foldl_english_comm st cid r _ eng

/-- Processing one serialized passage appends its restricted form. -/
theorem run_emitPassage (O : SerializeOptions) (p : CPassage)
    (st : ParseState) (rest : List MLine) (h : headClosed rest) :
    run st (emitPassage O p ++ rest)
      = run (addP (closeCur st) (restrictPassage O p)) rest := by
  obtain ⟨r, k, lab, ps, e⟩ := p
  rw [emitPassage]
  show closeCur (List.foldl step st
    (MLine.pheader k r lab :: (emitContent O ps e ++ rest))) = _
  rw [List.foldl_cons]
  have hstep : step st (.pheader k r lab)
      = { closeCur st with cur := .pass k r lab [] none } := rfl
  rw [hstep, List.foldl_append, foldl_emitContent_pass]
  show run { closeCur st with cur := (.pass k r lab
    ((ps.filter fun sc => O.scripts.contains sc.1).reverse)
    e) } rest = _
  rw [run_closeCur _ rest h]
  congr 1
  cases k <;>
    simp [closeCur, addP, restrictPassage, List.reverse_reverse]

/-- Processing one serialized commentary block appends its restricted
passage under its commentary id. -/
theorem run_cblock (O : SerializeOptions) (cid : String)
    (cp : CCommentaryPassage) (st : ParseState) (rest : List MLine)
    (h : headClosed rest) :
    run st ((MLine.cheader cid cp.ref
        :: emitContent O cp.perScript cp.english) ++ rest)
      = run (addC (closeCur st) (cid, restrictCP O cp)) rest := by
  show closeCur (List.foldl step st
    (MLine.cheader cid cp.ref
      :: (emitContent O cp.perScript cp.english ++ rest))) = _
  rw [List.foldl_cons]
  have hstep : step st (.cheader cid cp.ref)
      = { closeCur st with cur := .comm cid cp.ref [] none } := rfl
  rw [hstep, List.foldl_append, foldl_emitContent_comm]
  show run { closeCur st with cur := (.comm cid cp.ref
    ((cp.perScript.filter fun sc => O.scripts.contains sc.1).reverse)
    cp.english) } rest = _
  rw [run_closeCur _ rest h]
  congr 1
  simp [closeCur, addC, restrictCP, List.reverse_reverse]

end GranthaExplorer.Converter

namespace GranthaExplorer.Converter

/-! ## C1 — round-trip machinery: section lemmas -/

theorem addP_cur (st : ParseState) (p : CPassage) : (addP st p).cur = .closed := by
  cases hk : p.kind <;> simp [addP, hk]

theorem closeCur_addP (st : ParseState) (p : CPassage) :
    closeCur (addP st p) = addP st p :=
  closeCur_of_closed _ (addP_cur st p)

theorem closeCur_addC (st : ParseState) (e : String × CCommentaryPassage) :
    closeCur (addC st e) = addC st e :=
  closeCur_of_closed _ rfl

theorem headClosed_pass_append (O : SerializeOptions) (ps : List CPassage)
    (rest : List MLine) (h : headClosed rest) :
    headClosed (ps.flatMap (emitPassage O) ++ rest) := by
  cases ps with
  | nil => simpa using h
  | cons p ps => simp [List.flatMap_cons, emitPassage, headClosed, isHeader]

theorem headClosed_cblocks_append (O : SerializeOptions)
    (prs : List (String × CCommentaryPassage)) (rest : List MLine)
    (h : headClosed rest) :
    headClosed (prs.flatMap (cblock O) ++ rest) := by
  cases prs with
  | nil => simpa using h
  | cons e prs => simp [List.flatMap_cons, cblock, headClosed, isHeader]

theorem headClosed_mainBlocks_append (O : SerializeOptions)
    (cs : List CCommentary) (ps : List CPassage) (rest : List MLine)
    (h : headClosed rest) :
    headClosed (ps.flatMap
        (fun p => emitPassage O p ++ emitCommentAt O cs p.ref) ++ rest) := by
  cases ps with
  | nil => simpa using h
  | cons p ps => simp [List.flatMap_cons, emitPassage, headClosed, isHeader]

theorem flatMap_map_cblock (O : SerializeOptions) (cid : String)
    (l : List CCommentaryPassage) :
    ((l.map fun cp => (cid, cp)).flatMap (cblock O))
      = l.flatMap fun cp =>
          .cheader cid cp.ref :: emitContent O cp.perScript cp.english := by
  induction l with
  | nil => rfl
  | cons cp l ih =>
    simp only [List.map_cons, List.flatMap_cons, ih]
    rfl

theorem emitCommentAt_eq (O : SerializeOptions) (cs : List CCommentary)
    (r : String) :
    emitCommentAt O cs r = (pairsAt cs r).flatMap (cblock O) := by
  induction cs with
  | nil => rfl
  | cons c cs ih =>
    simp only [emitCommentAt, pairsAt, List.flatMap_cons, List.flatMap_append]
      at ih ⊢
    rw [flatMap_map_cblock, ih]

theorem run_passList (O : SerializeOptions) (ps : List CPassage) :
    ∀ (st : ParseState) (rest : List MLine), headClosed rest →
      run st (ps.flatMap (emitPassage O) ++ rest)
        = run (ps.foldl (stepAddP O) (closeCur st)) rest := by
  induction ps with
  | nil =>
    intro st rest h
    simpa using run_closeCur st rest h
  | cons p ps ih =>
    intro st rest h
    rw [List.flatMap_cons, List.append_assoc,
      run_emitPassage O p st _ (headClosed_pass_append O ps rest h),
      List.foldl_cons, ih _ rest h, closeCur_addP]
    rfl

theorem run_cblockList (O : SerializeOptions)
    (prs : List (String × CCommentaryPassage)) :
    ∀ (st : ParseState) (rest : List MLine), headClosed rest →
      run st (prs.flatMap (cblock O) ++ rest)
        = run (prs.foldl (stepAddC O) (closeCur st)) rest := by
  induction prs with
  | nil =>
    intro st rest h
    simpa using run_closeCur st rest h
  | cons e prs ih =>
    intro st rest h
    rw [List.flatMap_cons, List.append_assoc]
    simp only [cblock]
    rw [run_cblock O e.1 e.2 st _ (headClosed_cblocks_append O prs rest h),
      List.foldl_cons, ih _ rest h, closeCur_addC]
    rfl

theorem run_mainBlock (O : SerializeOptions) (cs : List CCommentary)
    (p : CPassage) (st : ParseState) (rest : List MLine) (h : headClosed rest) :
    run st ((emitPassage O p ++ emitCommentAt O cs p.ref) ++ rest)
      = run (stepMain O cs st p) rest := by
  rw [List.append_assoc, emitCommentAt_eq,
    run_emitPassage O p st _
      (headClosed_cblocks_append O (pairsAt cs p.ref) rest h),
    run_cblockList O (pairsAt cs p.ref) _ rest h, closeCur_addP]
  rfl

theorem run_mainList (O : SerializeOptions) (cs : List CCommentary)
    (ps : List CPassage) :
    ∀ (st : ParseState) (rest : List MLine), headClosed rest →
      run st (ps.flatMap
          (fun p => emitPassage O p ++ emitCommentAt O cs p.ref) ++ rest)
        = run (ps.foldl (stepMain O cs) st) rest := by
  induction ps with
  | nil => intro st rest h; simp
  | cons p ps ih =>
    intro st rest h
    rw [List.flatMap_cons, List.append_assoc,
      run_mainBlock O cs p st _ (headClosed_mainBlocks_append O cs ps rest h),
      List.foldl_cons, ih _ rest h]

/-! ## C1 — fold-state computation -/

theorem withCur_closed_eq (st : ParseState) (h : st.cur = .closed) :
    ({ st with cur := Target.closed } : ParseState) = st := by
  rw [← h]

theorem foldl_stepAddP_pref (O : SerializeOptions) (ps : List CPassage) :
    ∀ (st : ParseState), st.cur = .closed →
      (∀ p ∈ ps, p.kind = .prefatory) →
      ps.foldl (stepAddP O) st
        = { st with
            revPref := (ps.map (restrictPassage O)).reverse ++ st.revPref,
            cur := .closed } := by
  induction ps with
  | nil =>
    intro st hc _
    simp only [List.foldl_nil, List.map_nil, List.reverse_nil, List.nil_append]
    exact (withCur_closed_eq st hc).symm
  | cons p ps ih =>
    intro st hc hk
    have hrp : (restrictPassage O p).kind = PKind.prefatory := by
      simpa [restrictPassage] using hk p (List.mem_cons_self p ps)
    have hstep : stepAddP O st p
        = { st with
            revPref := restrictPassage O p :: st.revPref,
            cur := .closed } := by
      rw [stepAddP, addP.eq_def, hrp]
    rw [List.foldl_cons, hstep,
      ih _ rfl fun q hq => hk q (List.mem_cons_of_mem p hq)]
    simp

theorem foldl_stepAddP_concl (O : SerializeOptions) (ps : List CPassage) :
    ∀ (st : ParseState), st.cur = .closed →
      (∀ p ∈ ps, p.kind = .concluding) →
      ps.foldl (stepAddP O) st
        = { st with
            revConcl := (ps.map (restrictPassage O)).reverse ++ st.revConcl,
            cur := .closed } := by
  induction ps with
  | nil =>
    intro st hc _
    simp only [List.foldl_nil, List.map_nil, List.reverse_nil, List.nil_append]
    exact (withCur_closed_eq st hc).symm
  | cons p ps ih =>
    intro st hc hk
    have hrp : (restrictPassage O p).kind = PKind.concluding := by
      simpa [restrictPassage] using hk p (List.mem_cons_self p ps)
    have hstep : stepAddP O st p
        = { st with
            revConcl := restrictPassage O p :: st.revConcl,
            cur := .closed } := by
      rw [stepAddP, addP.eq_def, hrp]
    rw [List.foldl_cons, hstep,
      ih _ rfl fun q hq => hk q (List.mem_cons_of_mem p hq)]
    simp

theorem foldl_stepAddC_pairs (O : SerializeOptions)
    (prs : List (String × CCommentaryPassage)) :
    ∀ (st : ParseState), st.cur = .closed →
      prs.foldl (stepAddC O) st
        = { st with
            revComm := (prs.map fun e => (e.1, restrictCP O e.2)).reverse
              ++ st.revComm,
            cur := .closed } := by
  induction prs with
  | nil =>
    intro st hc
    simp only [List.foldl_nil, List.map_nil, List.reverse_nil, List.nil_append]
    exact (withCur_closed_eq st hc).symm
  | cons e prs ih =>
    intro st hc
    rw [List.foldl_cons,
      show stepAddC O st e
        = { st with
            revComm := (e.1, restrictCP O e.2) :: st.revComm,
            cur := .closed } from rfl,
      ih _ rfl]
    simp

theorem foldl_stepMain (O : SerializeOptions) (cs : List CCommentary)
    (ps : List CPassage) :
    ∀ (st : ParseState), st.cur = .closed →
      (∀ p ∈ ps, p.kind = .main) →
      ps.foldl (stepMain O cs) st
        = { st with
            revMain := (ps.map (restrictPassage O)).reverse ++ st.revMain,
            revComm := (ps.flatMap fun p =>
                (pairsAt cs p.ref).map fun e => (e.1, restrictCP O e.2)).reverse
              ++ st.revComm,
            cur := .closed } := by
  induction ps with
  | nil =>
    intro st hc _
    simp only [List.foldl_nil, List.map_nil, List.reverse_nil, List.nil_append,
      List.flatMap_nil]
    exact (withCur_closed_eq st hc).symm
  | cons p ps ih =>
    intro st hc hk
    have hrp : (restrictPassage O p).kind = PKind.main := by
      simpa [restrictPassage] using hk p (List.mem_cons_self p ps)
    have hstep : stepMain O cs st p
        = { st with
            revMain := restrictPassage O p :: st.revMain,
            revComm := ((pairsAt cs p.ref).map fun e =>
                (e.1, restrictCP O e.2)).reverse ++ st.revComm,
            cur := .closed } := by
      rw [stepMain, closeCur_of_closed st hc,
        show addP st (restrictPassage O p)
          = { st with
              revMain := restrictPassage O p :: st.revMain,
              cur := .closed } from by rw [addP.eq_def, hrp],
        foldl_stepAddC_pairs O _ _ rfl]
    rw [List.foldl_cons, hstep,
      ih _ rfl fun q hq => hk q (List.mem_cons_of_mem p hq)]
    simp [List.flatMap_cons]

theorem run_serialize (D : CDocument) (O : SerializeOptions)
    (hPref : ∀ p ∈ D.prefatory, p.kind = .prefatory)
    (hMain : ∀ p ∈ D.main, p.kind = .main)
    (hConcl : ∀ p ∈ D.concluding, p.kind = .concluding) :
    run {} (serialize D O) = finalState D O := by
  have hC : headClosed (D.concluding.flatMap (emitPassage O)) := by
    simpa using headClosed_pass_append O D.concluding [] True.intro
  have hBC : headClosed ((D.main.flatMap fun p =>
      emitPassage O p ++ emitCommentAt O (selComms D O) p.ref)
    ++ D.concluding.flatMap (emitPassage O)) :=
    headClosed_mainBlocks_append O _ _ _ hC
  have hMeta : closeCur (step {} (MLine.meta D.id D.title
      ((selComms D O).map fun c => (c.id, c.title))
      (hashDocument (restrict D O))))
    = ({ docId := D.id
         docTitle := D.title
         commMeta := (selComms D O).map fun c => (c.id, c.title) } :
        ParseState) := rfl
  rw [serialize, run, List.foldl_cons, ← run, List.append_assoc,
    run_passList O D.prefatory _ _ hBC, hMeta,
    foldl_stepAddP_pref O D.prefatory _ rfl hPref,
    run_mainList O (selComms D O) D.main _ _ hC,
    foldl_stepMain O (selComms D O) D.main _ rfl hMain,
    show D.concluding.flatMap (emitPassage O)
      = D.concluding.flatMap (emitPassage O) ++ [] from (List.append_nil _).symm,
    run_passList O D.concluding _ []
      (show headClosed ([] : List MLine) from True.intro),
    closeCur_of_closed _ rfl,
    foldl_stepAddP_concl O D.concluding _ rfl hConcl]
  simp [run, closeCur, finalState]

end GranthaExplorer.Converter

namespace GranthaExplorer.Converter

/-! ## C1 — assembling the parsed document -/

theorem mem_pairsAt (cs : List CCommentary) (r : String)
    (e : String × CCommentaryPassage) (he : e ∈ pairsAt cs r) :
    ∃ c ∈ cs, e.1 = c.id ∧ e.2 ∈ c.passages.filter fun cp => cp.ref == r := by
  simp only [pairsAt, List.mem_flatMap, List.mem_map] at he
  obtain ⟨c, hc, cp, hcp, rfl⟩ := he
  exact ⟨c, hc, rfl, hcp⟩

theorem pairsAt_filter_id (r : String) (c : CCommentary) :
    ∀ (cs : List CCommentary), c ∈ cs →
      (cs.map CCommentary.id).Nodup →
      (pairsAt cs r).filter (fun e => e.1 == c.id)
        = (c.passages.filter fun cp => cp.ref == r).map fun cp => (c.id, cp) := by
  intro cs
  induction cs with
  | nil => intro hc _; cases hc
  | cons c' cs ih =>
    intro hc hnd
    obtain ⟨hnin, hnd'⟩ := List.nodup_cons.mp hnd
    rw [pairsAt, List.flatMap_cons, List.filter_append]
    rcases List.mem_cons.mp hc with hq | hc'
    · subst hq
      have h1 : (((c.passages.filter fun cp => cp.ref == r).map
            fun cp => (c.id, cp)).filter fun e => e.1 == c.id)
          = (c.passages.filter fun cp => cp.ref == r).map
              fun cp => (c.id, cp) := by
        rw [List.filter_eq_self]
        intro e he
        simp only [List.mem_map] at he
        obtain ⟨cp, _, rfl⟩ := he
        simp
      have h2 : ((cs.flatMap fun c2 =>
            (c2.passages.filter fun cp => cp.ref == r).map
              fun cp => (c2.id, cp)).filter fun e => e.1 == c.id) = [] := by
        rw [List.filter_eq_nil_iff]
        intro e he
        obtain ⟨c2, hc2, hid, _⟩ := mem_pairsAt cs r e he
        simp only [beq_iff_eq, hid]
        intro hcc
        apply hnin
        rw [← hcc]
        exact List.mem_map_of_mem CCommentary.id hc2
      rw [h1, h2, List.append_nil]
    · have hcid : c.id ∈ cs.map CCommentary.id :=
        List.mem_map_of_mem CCommentary.id hc'
      have h1 : (((c'.passages.filter fun cp => cp.ref == r).map
            fun cp => (c'.id, cp)).filter fun e => e.1 == c.id) = [] := by
        rw [List.filter_eq_nil_iff]
        intro e he
        simp only [List.mem_map] at he
        obtain ⟨cp, _, rfl⟩ := he
        simp only [beq_iff_eq]
        intro hcc
        apply hnin
        rw [hcc]
        exact hcid
      rw [h1, List.nil_append]
      exact ih hc' hnd'

theorem collected_mem_declared (D : CDocument) (O : SerializeOptions)
    (e : String × CCommentaryPassage)
    (he : e ∈ D.main.flatMap fun p =>
      (pairsAt (selComms D O) p.ref).map fun e => (e.1, restrictCP O e.2)) :
    e.1 ∈ (selComms D O).map CCommentary.id := by
  simp only [List.mem_flatMap, List.mem_map] at he
  obtain ⟨p, hp, e0, he0, rfl⟩ := he
  obtain ⟨c, hc, hid, _⟩ := mem_pairsAt (selComms D O) p.ref e0 he0
  show e0.1 ∈ (selComms D O).map CCommentary.id
  rw [hid]
  exact List.mem_map_of_mem CCommentary.id hc

theorem extraIds_nil (cs : List CCommentary)
    (l : List (String × CCommentaryPassage))
    (hmem : ∀ e ∈ l, e.1 ∈ cs.map CCommentary.id) :
    firstDedup ((l.map Prod.fst).filter fun cid =>
      ¬ ((cs.map fun c => (c.id, c.title)).map Prod.fst).contains cid)
      = [] := by
  have hnil : ((l.map Prod.fst).filter fun cid =>
      ¬ ((cs.map fun c => (c.id, c.title)).map Prod.fst).contains cid)
      = [] := by
    rw [List.filter_eq_nil_iff]
    intro a ha
    simp only [List.mem_map] at ha
    obtain ⟨e, he, rfl⟩ := ha
    simpa [List.map_map] using hmem e he
  rw [hnil]
  rfl

theorem collected_filter_id (D : CDocument) (O : SerializeOptions)
    (c : CCommentary) (hc : c ∈ selComms D O)
    (hIds : ((selComms D O).map CCommentary.id).Nodup)
    (hOrd : D.main.flatMap
        (fun p => c.passages.filter fun cp => cp.ref == p.ref) = c.passages) :
    (((D.main.flatMap fun p =>
          (pairsAt (selComms D O) p.ref).map fun e =>
            (e.1, restrictCP O e.2)).filter fun e => e.1 == c.id).map
        Prod.snd)
      = c.passages.map (restrictCP O) := by
  rw [List.filter_flatMap]
  have hin : ∀ p : CPassage,
      (((pairsAt (selComms D O) p.ref).map fun e =>
          (e.1, restrictCP O e.2)).filter fun e => e.1 == c.id)
        = ((c.passages.filter fun cp => cp.ref == p.ref).map
            fun cp => (c.id, restrictCP O cp)) := by
    intro p
    rw [List.filter_map,
      show ((fun e : String × CCommentaryPassage => e.1 == c.id) ∘
          fun e : String × CCommentaryPassage => (e.1, restrictCP O e.2))
        = fun e : String × CCommentaryPassage => e.1 == c.id from rfl,
      pairsAt_filter_id p.ref c (selComms D O) hc hIds, List.map_map,
      show ((fun e : String × CCommentaryPassage =>
            (e.1, restrictCP O e.2)) ∘
          fun cp : CCommentaryPassage => (c.id, cp))
        = fun cp : CCommentaryPassage => (c.id, restrictCP O cp) from rfl]
  simp only [hin]
  rw [List.map_flatMap]
  simp only [List.map_map]
  rw [show (Prod.snd ∘ fun cp : CCommentaryPassage =>
        (c.id, restrictCP O cp)) = restrictCP O from rfl,
    ← List.map_flatMap, hOrd]

theorem finalize_finalState (D : CDocument) (O : SerializeOptions)
    (hIds : ((selComms D O).map CCommentary.id).Nodup)
    (hOrd : ∀ c ∈ selComms D O,
      D.main.flatMap (fun p => c.passages.filter fun cp => cp.ref == p.ref)
        = c.passages) :
    finalize (finalState D O) = restrict D O := by
  rw [finalize, closeCur_of_closed (finalState D O) rfl]
  simp only [finalState, List.reverse_reverse]
  rw [extraIds_nil (selComms D O) _ (fun e he => collected_mem_declared D O e he)]
  rw [restrict]
  simp only [List.map_map, List.map_nil, List.append_nil, CDocument.mk.injEq]
  refine ⟨trivial, trivial, trivial, trivial, trivial, ?_⟩
  refine List.map_congr_left fun c hc => ?_
  simp only [Function.comp]
  rw [collected_filter_id D O c hc hIds (hOrd c hc)]

theorem parse_serialize_eq (D : CDocument) (O : SerializeOptions)
    (h : ValidFor D O) : parse (serialize D O) = restrict D O := by
  obtain ⟨hPref, hMain, hConcl, hIds, hOrd⟩ := h
  have hrun : closeCur (List.foldl step {} (serialize D O)) = finalState D O :=
    run_serialize D O hPref hMain hConcl
  have hfin : finalize (List.foldl step {} (serialize D O))
      = finalize (finalState D O) := by
    rw [finalize, finalize, hrun, closeCur_of_closed (finalState D O) rfl]
  rw [parse, hfin, finalize_finalState D O hIds hOrd]

/-- C1: round-trip losslessness (modelled from the spec §4.1, §4.3–4.5; the
converter implementation is not part of the analysed tree).  For every valid
document `D` and every options set `O`, parsing the markup produced by
serializing `D` under `O` reproduces exactly the document `D` restricted to
the content included under `O` (scripts outside `O.scripts` and commentaries
outside the selection omitted), and in particular the content hash of the
parsed document equals the content hash of the restricted document:
`hashDocument (parse (serialize D O)) = hashDocument (restrict D O)`. -/
theorem converter_round_trip (D : CDocument) (O : SerializeOptions)
    (h : ValidFor D O) :
    parse (serialize D O) = restrict D O ∧
    hashDocument (parse (serialize D O)) = hashDocument (restrict D O) :=
  ⟨parse_serialize_eq D O h, congrArg hashDocument (parse_serialize_eq D O h)⟩

end GranthaExplorer.Converter

namespace GranthaExplorer.Witnesses

/-- C1 witness: the round trip evaluated at the concrete document `wDoc`
(prefatory passage, two main passages, one commentary) under options
restricting to the devanagari script with all commentaries selected; the
validity hypothesis is discharged by evaluation. -/
theorem converter_round_trip_witness :
    Converter.ValidFor wDoc wOpts ∧
      (Converter.parse (Converter.serialize wDoc wOpts)
          = Converter.restrict wDoc wOpts ∧
        Converter.hashDocument (Converter.parse (Converter.serialize wDoc wOpts))
          = Converter.hashDocument (Converter.restrict wDoc wOpts)) :=
  ⟨by unfold Converter.ValidFor; decide,
    Converter.converter_round_trip wDoc wOpts
      (by unfold Converter.ValidFor; decide)⟩

end GranthaExplorer.Witnesses
